import Mathlib

/-!
Verification development for the raptor embedded vector store.

The store is modelled shallowly:
* a file is a `List Nat` of byte values;
* `Float32Array` contents are modelled by their 32-bit IEEE-754 bit
  patterns (`Nat < 2^32`); serialising a float32 to four little-endian
  bytes and reading it back is bit-exact, which is what the JavaScript
  `DataView.setFloat32`/`getFloat32` pair does for a value that is
  already a float32;
* strings (keys) are modelled by their UTF-8 byte sequences
  (`List Nat`), since the codec only ever sees the encoded bytes;
* JavaScript exceptions are modelled with `Except JsError`;
* the number values used by the search path (similarities) are
  modelled over `ℝ`, with `Real.sqrt` for `Math.sqrt`.
-/

/-- Errors thrown by the TypeScript code, one constructor per throw site. -/
inductive JsError
  /-- readHeader: file shorter than the 16-byte header. -/
  | fileTooSmall (bytesRead : Nat)
  /-- readHeader: magic bytes are not "EMBD". -/
  | invalidFileFormat
  /-- readHeader: version field differs from the current version. -/
  | unsupportedVersion (v : Nat)
  /-- readRecordForward: trailing footer does not match the computed length. -/
  | recordLengthMismatch (expected got : Nat)
  /-- cosineSimilarity: vectors of different lengths. -/
  | dimensionMismatch
  /-- tiny-invariant failure (falsy argument). -/
  | invariantFailed (msg : String)
  /-- node fs read with a negative position. -/
  | outOfRange
deriving DecidableEq

deriving instance DecidableEq for Except

/-- Little-endian byte pair written by `DataView.setUint16` (truncates mod 2^16). -/
def uint16LEBytes (v : Nat) : List Nat :=
  [v % 256, v / 256 % 256]

/-- Little-endian byte quadruple written by `DataView.setUint32` (truncates mod 2^32). -/
def uint32LEBytes (v : Nat) : List Nat :=
  [v % 256, v / 256 % 256, v / 65536 % 256, v / 16777216 % 256]

/-- `DataView.getUint16(offset, true)` over the modelled byte list. -/
def readUInt16LE (bytes : List Nat) (off : Nat) : Nat :=
  bytes.getD off 0 + 256 * bytes.getD (off + 1) 0

/-- `DataView.getUint32(offset, true)` over the modelled byte list. -/
def readUInt32LE (bytes : List Nat) (off : Nat) : Nat :=
  bytes.getD off 0 + 256 * bytes.getD (off + 1) 0 +
    65536 * bytes.getD (off + 2) 0 + 16777216 * bytes.getD (off + 3) 0

/-- The magic bytes "EMBD" (source: binary-format.ts, magicBytes). -/
def magicBytes : List Nat := [69, 77, 66, 68]

/-- Source: binary-format.ts, currentVersion. -/
def currentVersion : Nat := 1

/-- Source: binary-format.ts, headerSize. -/
def headerSize : Nat := 16

/-- Source: binary-format.ts, interface Header. -/
structure Header where
  version : Nat
  dimension : Nat
deriving DecidableEq

/-- Source: binary-format.ts, calculateRecordLength. -/
def calculateRecordLength (keyLength : Nat) (dimension : Nat) : Nat :=
  2 + keyLength + dimension * 4 + 4

/-- Source: binary-format.ts, writeHeader; the 16 bytes written to a fresh file:
magic, version (uint16 LE), dimension (uint32 LE), six zeroed reserved bytes. -/
def writeHeader (dimension : Nat) : List Nat :=
  magicBytes ++ uint16LEBytes currentVersion ++ uint32LEBytes dimension ++
    List.replicate 6 0

/-- Source: binary-format.ts, readHeader. Reads (up to) the first 16 bytes of
the file, validates the magic bytes and the version, and returns the header. -/
def readHeader (file : List Nat) : Except JsError Header :=
  let bytesRead := min file.length headerSize
  if bytesRead < headerSize then .error (.fileTooSmall bytesRead)
  else if file.take 4 ≠ magicBytes then .error .invalidFileFormat
  else
    let version := readUInt16LE file 4
    if version ≠ currentVersion then .error (.unsupportedVersion version)
    else .ok ⟨version, readUInt32LE file 6⟩

/-- C6: the claim's list of failure conditions does not cover versions BELOW
the current one, yet the code rejects those too.  Concrete refutation: a
16-byte header with correct magic whose version field is 0 — none of the
claim's three failure conditions holds (0 does not exceed the supported
version), so the claim says readHeader returns {version := 0, dimension := 3};
the code returns an unsupported-version error instead. -/
theorem readHeader_version_zero_rejected :
    (magicBytes ++ uint16LEBytes 0 ++ uint32LEBytes 3 ++ List.replicate 6 0).length =
        headerSize ∧
      (magicBytes ++ uint16LEBytes 0 ++ uint32LEBytes 3 ++ List.replicate 6 0).take 4 =
        magicBytes ∧
      readUInt16LE (magicBytes ++ uint16LEBytes 0 ++ uint32LEBytes 3 ++ List.replicate 6 0) 4 = 0 ∧
      ¬ currentVersion < 0 ∧
      readHeader (magicBytes ++ uint16LEBytes 0 ++ uint32LEBytes 3 ++ List.replicate 6 0) =
        .error (.unsupportedVersion 0) := by
  decide

/-- C6 (amended): readHeader reads the first 16 bytes and fails Truncated when
fewer than 16 bytes are available, fails InvalidFormat when the first four
bytes are not "EMBD", fails UnsupportedVersion when the little-endian uint16
version at offset 4 differs from the current version in either direction, and
otherwise returns the version together with the little-endian uint32 dimension
at offset 6. -/
theorem readHeader_characterization (file : List Nat) :
    (file.length < headerSize →
        readHeader file = .error (.fileTooSmall (min file.length headerSize))) ∧
      (headerSize ≤ file.length → file.take 4 ≠ magicBytes →
        readHeader file = .error .invalidFileFormat) ∧
      (headerSize ≤ file.length → file.take 4 = magicBytes →
        readUInt16LE file 4 ≠ currentVersion →
        readHeader file = .error (.unsupportedVersion (readUInt16LE file 4))) ∧
      (headerSize ≤ file.length → file.take 4 = magicBytes →
        readUInt16LE file 4 = currentVersion →
        readHeader file = .ok ⟨currentVersion, readUInt32LE file 6⟩) := by
  refine ⟨?_, ?_, ?_, ?_⟩
  · intro h
    rw [readHeader]
    simp only [min_lt_iff]
    rw [if_pos (Or.inl h)]
  · intro h hm
    rw [readHeader]
    have : ¬ min file.length headerSize < headerSize := by omega
    rw [if_neg this, if_pos hm]
  · intro h hm hv
    rw [readHeader]
    have : ¬ min file.length headerSize < headerSize := by omega
    rw [if_neg this, if_neg (by simpa using hm)]
    exact if_pos hv
  · intro h hm hv
    rw [readHeader]
    have : ¬ min file.length headerSize < headerSize := by omega
    rw [if_neg this, if_neg (by simpa using hm)]
    simp [hv]

/-- Witness for `readHeader_characterization`: a valid dimension-5 header is
accepted with the stated contents. -/
theorem readHeader_characterization_witness :
    readHeader (writeHeader 5) = .ok ⟨currentVersion, 5⟩ :=
  (readHeader_characterization (writeHeader 5)).2.2.2
    (by decide) (by decide) (by decide)

/-- C10: readHeader accepts only the exact current format version: any header
whose version field differs from the current version — in either direction,
including strictly lower versions — is rejected with an unsupported-version
error. -/
theorem readHeader_only_current_version (file : List Nat) (v : Nat)
    (hlen : headerSize ≤ file.length) (hmagic : file.take 4 = magicBytes)
    (hv : readUInt16LE file 4 = v) (hne : v ≠ currentVersion) :
    readHeader file = .error (.unsupportedVersion v) := by
  rw [readHeader]
  have : ¬ min file.length headerSize < headerSize := by omega
  rw [if_neg this, if_neg (by simpa using hmagic)]
  rw [hv]
  exact if_pos hne

/-- Witness for `readHeader_only_current_version`: a header carrying the
strictly lower version 0 (dimension 7) is rejected. -/
theorem readHeader_only_current_version_witness :
    readHeader (magicBytes ++ uint16LEBytes 0 ++ uint32LEBytes 7 ++ List.replicate 6 0) =
      .error (.unsupportedVersion 0) :=
  readHeader_only_current_version _ 0 (by decide) (by decide) (by decide) (by decide)

/-- `buffer.slice`-style view: `n` bytes of `l` starting at `s`. -/
def sliceBytes (l : List Nat) (s n : Nat) : List Nat :=
  (l.drop s).take n

/-- Source: binary-format.ts, interface BinaryRecord.  The `embedding` field
models the returned `Float32Array` by its list of 32-bit patterns. -/
structure BinaryRecord where
  key : List Nat
  embedding : List Nat
  recordLength : Nat
deriving DecidableEq

/-- The bytes of one record as laid out by `writeRecord`: two-byte key length
(truncated mod 2^16 by `setUint16`), the key bytes, each embedding component as
four little-endian bytes, and the four-byte record-length footer (truncated
mod 2^32 by `setUint32`). -/
def writeRecordBytes (key embedding : List Nat) : List Nat :=
  uint16LEBytes key.length ++ key ++ embedding.flatMap uint32LEBytes ++
    uint32LEBytes (calculateRecordLength key.length embedding.length)

/-- Source: binary-format.ts, writeRecord: appends one encoded record. -/
def writeRecord (file : List Nat) (key embedding : List Nat) : List Nat :=
  file ++ writeRecordBytes key embedding

/-- The per-record buffer built inside `writeRecords` (the source duplicates
the buffer-building code of `writeRecord` rather than calling it). -/
def recordBufferFor (record : List Nat × List Nat) : List Nat :=
  uint16LEBytes record.1.length ++ record.1 ++ record.2.flatMap uint32LEBytes ++
    uint32LEBytes (calculateRecordLength record.1.length record.2.length)

/-- Source: binary-format.ts, writeRecords: returns early on an empty batch,
otherwise concatenates every record buffer and appends once. -/
def writeRecords (file : List Nat) (records : List (List Nat × List Nat)) : List Nat :=
  if records.length = 0 then file
  else file ++ (records.map recordBufferFor).flatten

/-- Source: binary-format.ts, readRecordForward.  Reads the two-byte key
length at `offset`, computes the record length from it and the dimension,
reads that many bytes, validates the trailing footer and decodes the record.
Returns `none` when not enough bytes are available (end of file), mirroring
the `null` returns of the source. -/
def readRecordForward (file : List Nat) (dimension : Nat) (offset : Nat) :
    Except JsError (Option BinaryRecord) :=
  if file.length - offset < 2 then .ok none
  else
    let keyLength := readUInt16LE file offset
    let recordLength := calculateRecordLength keyLength dimension
    if file.length - offset < recordLength then .ok none
    else
      let body := sliceBytes file offset recordLength
      let key := sliceBytes body 2 keyLength
      let embedding := (List.range dimension).map fun i =>
        readUInt32LE body (2 + keyLength + 4 * i)
      let storedRecordLength := readUInt32LE body (2 + keyLength + dimension * 4)
      if storedRecordLength ≠ recordLength then
        .error (.recordLengthMismatch recordLength storedRecordLength)
      else .ok (some ⟨key, embedding, recordLength⟩)

theorem length_uint16LEBytes (v : Nat) : (uint16LEBytes v).length = 2 := rfl

theorem length_uint32LEBytes (v : Nat) : (uint32LEBytes v).length = 4 := rfl

theorem length_flatMap_uint32 (ws : List Nat) :
    (ws.flatMap uint32LEBytes).length = 4 * ws.length := by
  induction ws with
  | nil => rfl
  | cons w ws ih => simp [List.flatMap_cons, uint32LEBytes, ih]; omega

theorem length_writeRecordBytes (key embedding : List Nat) :
    (writeRecordBytes key embedding).length =
      calculateRecordLength key.length embedding.length := by
  rw [writeRecordBytes]
  simp only [List.length_append, length_flatMap_uint32, length_uint16LEBytes,
    length_uint32LEBytes, calculateRecordLength]
  omega

theorem getD_add_length (A l : List Nat) (k : Nat) (d : Nat) :
    (A ++ l).getD (A.length + k) d = l.getD k d := by
  rw [List.getD_append_right _ _ _ _ (Nat.le_add_right _ _)]
  congr 1
  omega

theorem readUInt16LE_append (A l : List Nat) (k : Nat) :
    readUInt16LE (A ++ l) (A.length + k) = readUInt16LE l k := by
  unfold readUInt16LE
  rw [getD_add_length, show A.length + k + 1 = A.length + (k + 1) by omega,
    getD_add_length]

theorem readUInt32LE_append (A l : List Nat) (k : Nat) :
    readUInt32LE (A ++ l) (A.length + k) = readUInt32LE l k := by
  unfold readUInt32LE
  rw [getD_add_length, show A.length + k + 1 = A.length + (k + 1) by omega,
    getD_add_length, show A.length + k + 2 = A.length + (k + 2) by omega,
    getD_add_length, show A.length + k + 3 = A.length + (k + 3) by omega,
    getD_add_length]

theorem readUInt16LE_uint16LEBytes (v : Nat) (t : List Nat) :
    readUInt16LE (uint16LEBytes v ++ t) 0 = v % 65536 := by
  simp [readUInt16LE, uint16LEBytes]
  omega

theorem readUInt32LE_uint32LEBytes (v : Nat) (t : List Nat) :
    readUInt32LE (uint32LEBytes v ++ t) 0 = v % 4294967296 := by
  simp [readUInt32LE, uint32LEBytes]
  omega

theorem readUInt32LE_flatWords (ws : List Nat) (t : List Nat) (i : Nat)
    (h : i < ws.length) :
    readUInt32LE (ws.flatMap uint32LEBytes ++ t) (4 * i) = ws[i] % 4294967296 := by
  induction ws generalizing i t with
  | nil => simp at h
  | cons w ws ih =>
    cases i with
    | zero =>
      rw [List.flatMap_cons, List.append_assoc]
      simpa using readUInt32LE_uint32LEBytes w (ws.flatMap uint32LEBytes ++ t)
    | succ j =>
      rw [List.flatMap_cons, List.append_assoc,
        show 4 * (j + 1) = (uint32LEBytes w).length + 4 * j by
          simp [length_uint32LEBytes]; omega,
        readUInt32LE_append]
      simpa using ih t j (by simpa using h)

theorem readUInt16LE_append_zero (A l : List Nat) :
    readUInt16LE (A ++ l) A.length = readUInt16LE l 0 := by
  simpa using readUInt16LE_append A l 0

theorem read16_record (key words : List Nat) :
    readUInt16LE (writeRecordBytes key words) 0 = key.length % 65536 := by
  rw [writeRecordBytes, List.append_assoc, List.append_assoc]
  exact readUInt16LE_uint16LEBytes _ _

theorem sliceBytes_record_key (key words : List Nat) :
    sliceBytes (writeRecordBytes key words) 2 key.length = key := by
  rw [sliceBytes, writeRecordBytes, List.append_assoc, List.append_assoc,
    show 2 = (uint16LEBytes key.length).length from rfl, List.drop_left,
    List.take_append_of_le_length (le_refl _), List.take_length]

theorem read32_record_word (key words : List Nat) (i : Nat) (h : i < words.length) :
    readUInt32LE (writeRecordBytes key words) (2 + key.length + 4 * i) =
      words[i] % 4294967296 := by
  rw [writeRecordBytes, List.append_assoc,
    show 2 + key.length + 4 * i = (uint16LEBytes key.length ++ key).length + 4 * i by
      simp only [List.length_append, length_uint16LEBytes],
    readUInt32LE_append]
  exact readUInt32LE_flatWords words _ i h

theorem read32_record_footer (key words : List Nat) :
    readUInt32LE (writeRecordBytes key words) (2 + key.length + words.length * 4) =
      calculateRecordLength key.length words.length % 4294967296 := by
  rw [writeRecordBytes,
    show 2 + key.length + words.length * 4 =
        (uint16LEBytes key.length ++ key ++ words.flatMap uint32LEBytes).length + 0 by
      simp only [List.length_append, length_uint16LEBytes, length_flatMap_uint32]; omega,
    readUInt32LE_append]
  simpa using readUInt32LE_uint32LEBytes (calculateRecordLength key.length words.length) []

/-- C4: record codec round-trip.  For any key of 1–65535 bytes and any
embedding of the header's dimension (modelled by its float32 bit patterns,
for which serialisation is bit-exact, hence within the claimed 1e-6
tolerance), appending with writeRecord and re-reading at the same offset with
readRecordForward returns the same key and embedding, reports the byte length
2 + keyLen + dim*4 + 4, and passes the trailing footer validation. -/
theorem writeRecord_readRecordForward_roundtrip (pre key words : List Nat) (dim : Nat)
    (hk1 : 1 ≤ key.length) (hk2 : key.length ≤ 65535)
    (hwlen : words.length = dim) (hw : ∀ w ∈ words, w < 4294967296)
    (hrec : calculateRecordLength key.length dim < 4294967296) :
    readRecordForward (writeRecord pre key words) dim pre.length =
      .ok (some ⟨key, words, 2 + key.length + dim * 4 + 4⟩) := by
  have hR : (writeRecordBytes key words).length = calculateRecordLength key.length dim := by
    rw [length_writeRecordBytes, hwlen]
  have hlen : (writeRecord pre key words).length =
      pre.length + calculateRecordLength key.length dim := by
    rw [writeRecord, List.length_append, hR]
  have hkl : readUInt16LE (writeRecord pre key words) pre.length = key.length := by
    rw [writeRecord, readUInt16LE_append_zero, read16_record]
    omega
  have hbody : sliceBytes (writeRecord pre key words) pre.length
      (calculateRecordLength key.length dim) = writeRecordBytes key words := by
    rw [sliceBytes, writeRecord, List.drop_left, ← hR, List.take_length]
  have hemb : ((List.range dim).map fun i =>
      readUInt32LE (writeRecordBytes key words) (2 + key.length + 4 * i)) = words := by
    refine List.ext_getElem (by simp [hwlen]) ?_
    intro n h1 h2
    simp only [List.getElem_map, List.getElem_range]
    rw [read32_record_word key words n (by omega)]
    exact Nat.mod_eq_of_lt (hw _ (List.getElem_mem _))
  have hfoot : readUInt32LE (writeRecordBytes key words) (2 + key.length + dim * 4) =
      calculateRecordLength key.length dim := by
    rw [show dim * 4 = words.length * 4 by rw [hwlen], read32_record_footer, hwlen]
    exact Nat.mod_eq_of_lt hrec
  rw [readRecordForward]
  rw [if_neg (by rw [hlen]; unfold calculateRecordLength; omega)]
  simp only [hkl, hbody, hemb, hfoot, sliceBytes_record_key]
  rw [if_neg (by rw [hlen]; omega), if_neg (by simp)]
  rfl

/-- Witness for `writeRecord_readRecordForward_roundtrip`: a one-byte key and
a dimension-2 embedding appended after a fresh header round-trip exactly. -/
theorem writeRecord_readRecordForward_roundtrip_witness :
    readRecordForward (writeRecord (writeHeader 2) [97] [1065353216, 0]) 2
        (writeHeader 2).length =
      .ok (some ⟨[97], [1065353216, 0], 2 + 1 + 2 * 4 + 4⟩) :=
  writeRecord_readRecordForward_roundtrip (writeHeader 2) [97] [1065353216, 0] 2
    (by decide) (by decide) (by decide) (by decide) (by decide)

theorem recordBufferFor_eq (r : List Nat × List Nat) :
    recordBufferFor r = writeRecordBytes r.1 r.2 := rfl

theorem foldl_writeRecord (file : List Nat) (records : List (List Nat × List Nat)) :
    List.foldl (fun f r => writeRecord f r.1 r.2) file records =
      file ++ (records.map recordBufferFor).flatten := by
  induction records generalizing file with
  | nil => simp
  | cons r rs ih =>
    rw [List.foldl_cons, ih, List.map_cons, List.flatten_cons, writeRecord,
      recordBufferFor_eq, List.append_assoc]

/-- C8: batch/sequential write equivalence.  One call to writeRecords appends
exactly the concatenation, in order, of the bytes each writeRecord call would
append, as a single append of the concatenated buffer, and appends nothing for
an empty list. -/
theorem writeRecords_eq_sequential (file : List Nat)
    (records : List (List Nat × List Nat)) :
    writeRecords file records =
        List.foldl (fun f r => writeRecord f r.1 r.2) file records ∧
      writeRecords file records = file ++ (records.map recordBufferFor).flatten ∧
      writeRecords file [] = file := by
  refine ⟨?_, ?_, rfl⟩
  · rw [writeRecords, foldl_writeRecord]
    rcases records with _ | ⟨r, rs⟩ <;> simp
  · rw [writeRecords]
    rcases records with _ | ⟨r, rs⟩ <;> simp

theorem getD_take (l : List Nat) (n i d : Nat) (h : i < n) :
    (l.take n).getD i d = l.getD i d := by
  rcases Nat.lt_or_ge i l.length with hl | hl
  · rw [List.getD_eq_getElem _ _ (by simp [List.length_take]; omega),
      List.getD_eq_getElem _ _ hl, List.getElem_take]
  · rw [List.getD_eq_default _ _ (by simp [List.length_take]; omega),
      List.getD_eq_default _ _ hl]

theorem read32_take (l : List Nat) (pos n : Nat) (h : pos + 4 ≤ n) :
    readUInt32LE (l.take n) pos = readUInt32LE l pos := by
  unfold readUInt32LE
  rw [getD_take _ _ _ _ (by omega), getD_take _ _ _ _ (by omega),
    getD_take _ _ _ _ (by omega), getD_take _ _ _ _ (by omega)]

/-- Behaviour of the forward reader on a record whose key is longer than
65535 bytes: the two-byte field reads back reduced mod 2^16, so the reader
computes a record length from the truncated value and decodes the shortened
body, validating the four bytes found at the shortened footer position. -/
theorem readRecordForward_long (key words : List Nat) (dim : Nat)
    (hwlen : words.length = dim) (hlong : 65535 < key.length) :
    readRecordForward (writeRecordBytes key words) dim 0 =
      (if readUInt32LE ((writeRecordBytes key words).take
            (calculateRecordLength (key.length % 65536) dim))
            (2 + key.length % 65536 + dim * 4) ≠
          calculateRecordLength (key.length % 65536) dim then
        .error (.recordLengthMismatch (calculateRecordLength (key.length % 65536) dim)
          (readUInt32LE ((writeRecordBytes key words).take
              (calculateRecordLength (key.length % 65536) dim))
            (2 + key.length % 65536 + dim * 4)))
      else
        .ok (some ⟨sliceBytes ((writeRecordBytes key words).take
              (calculateRecordLength (key.length % 65536) dim)) 2 (key.length % 65536),
          (List.range dim).map (fun i =>
            readUInt32LE ((writeRecordBytes key words).take
                (calculateRecordLength (key.length % 65536) dim))
              (2 + key.length % 65536 + 4 * i)),
          calculateRecordLength (key.length % 65536) dim⟩)) := by
  have hR : (writeRecordBytes key words).length = calculateRecordLength key.length dim := by
    rw [length_writeRecordBytes, hwlen]
  have hkl : readUInt16LE (writeRecordBytes key words) 0 = key.length % 65536 :=
    read16_record key words
  rw [readRecordForward]
  rw [if_neg (by rw [Nat.sub_zero, hR]; unfold calculateRecordLength; omega)]
  simp only [hkl]
  rw [if_neg (by
    rw [Nat.sub_zero, hR]; unfold calculateRecordLength
    have := Nat.mod_le key.length 65536
    omega)]
  rw [show sliceBytes (writeRecordBytes key words) 0
        (calculateRecordLength (key.length % 65536) dim) =
      (writeRecordBytes key words).take
        (calculateRecordLength (key.length % 65536) dim) by
    rw [sliceBytes, List.drop_zero]]

theorem take_eleven_of_append (X : List Nat) :
    List.take 11 ([1, 0] ++ X) = [1, 0] ++ X.take 9 := by
  rw [List.take_append_eq_append_take]
  norm_num

/-- C9 (amended): writeRecord performs no key-length validation: for a key
whose UTF-8 encoding exceeds 65535 bytes it still succeeds, writing the full
key bytes and a footer equal to the true record length but storing the byte
length reduced mod 2^16 in the two-byte keyLength field; consequently the
round-trip guarantee needs the at-most-65535-bytes precondition, and
readRecordForward rejects such a record with a length-mismatch error whenever
the four bytes it finds at the shortened footer position do not themselves
spell the shortened record length (a key crafted to place exactly those bytes
there is re-read without any error — see the counterexample). -/
theorem writeRecord_oversized_key (key words : List Nat) (dim : Nat)
    (hwlen : words.length = dim) (hlong : 65535 < key.length)
    (hrec : calculateRecordLength key.length dim < 4294967296) :
    readUInt16LE (writeRecordBytes key words) 0 = key.length % 65536 ∧
      sliceBytes (writeRecordBytes key words) 2 key.length = key ∧
      readUInt32LE (writeRecordBytes key words) (2 + key.length + dim * 4) =
        calculateRecordLength key.length dim ∧
      (writeRecordBytes key words).length = calculateRecordLength key.length dim ∧
      (readUInt32LE ((writeRecordBytes key words).take
            (calculateRecordLength (key.length % 65536) dim))
            (2 + key.length % 65536 + dim * 4) ≠
          calculateRecordLength (key.length % 65536) dim →
        readRecordForward (writeRecordBytes key words) dim 0 =
          .error (.recordLengthMismatch (calculateRecordLength (key.length % 65536) dim)
            (readUInt32LE ((writeRecordBytes key words).take
                (calculateRecordLength (key.length % 65536) dim))
              (2 + key.length % 65536 + dim * 4)))) := by
  refine ⟨read16_record key words, sliceBytes_record_key key words, ?_, ?_, ?_⟩
  · rw [show dim * 4 = words.length * 4 by rw [hwlen], read32_record_footer, hwlen]
    exact Nat.mod_eq_of_lt hrec
  · rw [length_writeRecordBytes, hwlen]
  · intro hne
    rw [readRecordForward_long key words dim hwlen hlong, if_pos hne]

theorem take_body_replicate :
    (writeRecordBytes (List.replicate 65537 97) [1065353216]).take 11 =
      [1, 0] ++ List.replicate 9 97 := by
  have e0 : writeRecordBytes (List.replicate 65537 97) [1065353216] =
      [1, 0] ++ (List.replicate 65537 97 ++
        ([1065353216].flatMap uint32LEBytes ++
          uint32LEBytes (calculateRecordLength 65537 [1065353216].length))) := by
    rw [writeRecordBytes, List.length_replicate, List.append_assoc, List.append_assoc,
      show uint16LEBytes 65537 = [1, 0] by norm_num [uint16LEBytes]]
  rw [e0, take_eleven_of_append,
    List.take_append_of_le_length (by rw [List.length_replicate]; omega),
    List.take_replicate]
  norm_num

/-- Witness for `writeRecord_oversized_key`: the 65537-byte key of all 'a'
bytes is written without error but rejected on re-read: the reader computes
key length 1 and record length 11, and the four bytes at the shortened footer
position are key bytes 0x61616161 = 1633771873 rather than 11. -/
theorem writeRecord_oversized_key_witness :
    readRecordForward (writeRecordBytes (List.replicate 65537 97) [1065353216]) 1 0 =
      .error (.recordLengthMismatch 11 1633771873) := by
  have hlen : (List.replicate 65537 (97 : Nat)).length = 65537 :=
    List.length_replicate 65537 97
  have h5 := (writeRecord_oversized_key (List.replicate 65537 97) [1065353216] 1
      rfl (by rw [hlen]; omega) (by rw [hlen]; norm_num [calculateRecordLength])).2.2.2.2
  rw [hlen] at h5
  norm_num [calculateRecordLength] at h5
  rw [take_body_replicate,
    show ([1, 0] ++ List.replicate 9 97 : List Nat) =
      [1, 0, 97, 97, 97, 97, 97, 97, 97, 97, 97] from rfl] at h5
  rw [show readUInt32LE [1, 0, 97, 97, 97, 97, 97, 97, 97, 97, 97] 7 = 1633771873
    from by decide] at h5
  exact h5 (by decide)

/-- The crafted oversized key used to refute C9 as stated: its bytes at the
shortened footer position spell exactly the shortened record length 11. -/
def fakeFooterKey : List Nat :=
  [97, 97, 97, 97, 97, 11, 0, 0, 0] ++ List.replicate 65528 97

theorem take_body_fakeFooter :
    (writeRecordBytes fakeFooterKey [1065353216]).take 11 =
      [1, 0, 97, 97, 97, 97, 97, 11, 0, 0, 0] := by
  have hl : fakeFooterKey.length = 65537 := by
    rw [fakeFooterKey, List.length_append, List.length_replicate]
    norm_num
  have e0 : writeRecordBytes fakeFooterKey [1065353216] =
      [1, 0] ++ (([97, 97, 97, 97, 97, 11, 0, 0, 0] ++ List.replicate 65528 97) ++
        ([1065353216].flatMap uint32LEBytes ++
          uint32LEBytes (calculateRecordLength 65537 [1065353216].length))) := by
    rw [writeRecordBytes, hl, List.append_assoc, List.append_assoc,
      show uint16LEBytes 65537 = [1, 0] by norm_num [uint16LEBytes]]
    rw [fakeFooterKey]
  rw [e0, take_eleven_of_append, List.append_assoc,
    List.take_append_of_le_length (by norm_num),
    show List.take 9 [97, 97, 97, 97, 97, 11, 0, 0, 0] =
      [97, 97, 97, 97, 97, 11, 0, 0, 0] from rfl]
  rfl

/-- C9 counterexample: the claim says a key longer than 65535 bytes always
produces a record that readRecordForward rejects with a length-mismatch
error; for this crafted 65537-byte key the bytes at the shortened footer
position spell the shortened length 11, so the reader returns a (corrupted)
record without any error. -/
theorem readRecordForward_fake_footer_accepted :
    65535 < fakeFooterKey.length ∧
      readRecordForward (writeRecordBytes fakeFooterKey [1065353216]) 1 0 =
        .ok (some ⟨[97], [1633771873], 11⟩) := by
  have hlen : fakeFooterKey.length = 65537 := by
    rw [fakeFooterKey, List.length_append, List.length_replicate]
    norm_num
  refine ⟨by omega, ?_⟩
  rw [readRecordForward_long fakeFooterKey [1065353216] 1 rfl (by omega)]
  rw [hlen]
  norm_num [calculateRecordLength]
  rw [take_body_fakeFooter]
  decide

/-- Source: candidate-set.ts, CandidateSetEntry (key modelled by UTF-8 bytes). -/
structure CandidateSetEntry (α : Type) where
  key : List Nat
  value : α
deriving DecidableEq

/-- Source: candidate-set.ts, CandidateSet: a fixed capacity `size` and an
unordered list of at most `size` entries.  The value type is any linearly
ordered type with a zero (instantiated at ℚ for the top-K theorem and at ℝ
for the search engine). -/
structure CandidateSet (α : Type) where
  size : Nat
  entries : List (CandidateSetEntry α)
deriving DecidableEq

/-- Source: candidate-set.ts, constructor (default size 5):
invariant(size > 0, 'Size must be a positive integer.'). -/
def CandidateSet.create (α : Type) (size : Nat) : Except JsError (CandidateSet α) :=
  if size = 0 then .error (.invariantFailed "Size must be a positive integer.")
  else .ok ⟨size, []⟩

/-- The minimum scan inside add: from index 1 upward, remember the index and
value of the smallest entry, updating on strict `<` only (first minimum wins). -/
def minScan {α : Type} [LinearOrder α] :
    List (CandidateSetEntry α) → Nat → Nat → α → Nat × α
  | [], _, minIndex, minValue => (minIndex, minValue)
  | e :: rest, i, minIndex, minValue =>
    if e.value < minValue then minScan rest (i + 1) i e.value
    else minScan rest (i + 1) minIndex minValue

/-- Source: candidate-set.ts, add.  `invariant(key)` rejects the empty string
and `invariant(value)` rejects the number 0 (JavaScript falsiness); below
capacity the entry is appended unconditionally; at capacity the minimum entry
is replaced exactly when the new value strictly exceeds it.  The `[]` match
arm is unreachable because the constructor enforces size > 0. -/
def CandidateSet.add {α : Type} [LinearOrder α] [Zero α] (s : CandidateSet α)
    (key : List Nat) (value : α) : Except JsError (CandidateSet α) :=
  if key = [] then .error (.invariantFailed "Key must be provided.")
  else if value = 0 then .error (.invariantFailed "Value must be provided.")
  else if s.entries.length < s.size then
    .ok ⟨s.size, s.entries ++ [⟨key, value⟩]⟩
  else
    match s.entries with
    | [] => .ok s
    | e0 :: rest =>
      let m := minScan rest 1 0 e0.value
      if m.2 < value then .ok ⟨s.size, (e0 :: rest).set m.1 ⟨key, value⟩⟩
      else .ok s

/-- Source: candidate-set.ts, count. -/
def CandidateSet.count {α : Type} (s : CandidateSet α) : Nat :=
  s.entries.length

/-- One step of the descending insertion used to model Array.sort with
comparator (a, b) => b.value - a.value. -/
def insertDesc {α : Type} [LinearOrder α] (e : CandidateSetEntry α) :
    List (CandidateSetEntry α) → List (CandidateSetEntry α)
  | [] => [e]
  | f :: rest => if f.value ≤ e.value then e :: f :: rest else f :: insertDesc e rest

def sortByValueDesc {α : Type} [LinearOrder α] :
    List (CandidateSetEntry α) → List (CandidateSetEntry α)
  | [] => []
  | e :: rest => insertDesc e (sortByValueDesc rest)

/-- Source: candidate-set.ts, getEntries: a copy of the entries sorted
descending by value. -/
def CandidateSet.getEntries {α : Type} [LinearOrder α] (s : CandidateSet α) :
    List (CandidateSetEntry α) :=
  sortByValueDesc s.entries

/-- Source: candidate-set.ts, getKeys. -/
def CandidateSet.getKeys {α : Type} [LinearOrder α] (s : CandidateSet α) :
    List (List Nat) :=
  s.getEntries.map (·.key)

/-- Source: engine.ts plus candidate-set.ts: feeding a list of (key, value)
pairs through add, failing on the first invariant violation. -/
def CandidateSet.addAll {α : Type} [LinearOrder α] [Zero α] (s : CandidateSet α)
    (items : List (List Nat × α)) : Except JsError (CandidateSet α) :=
  items.foldlM (fun t p => t.add p.1 p.2) s

theorem insertDesc_perm {α : Type} [LinearOrder α] (e : CandidateSetEntry α)
    (l : List (CandidateSetEntry α)) : (insertDesc e l).Perm (e :: l) := by
  induction l with
  | nil => exact List.Perm.refl _
  | cons f rest ih =>
    rw [insertDesc]
    by_cases hf : f.value ≤ e.value
    · rw [if_pos hf]
    · rw [if_neg hf]
      exact (ih.cons f).trans (List.Perm.swap e f rest)

theorem sortByValueDesc_perm {α : Type} [LinearOrder α]
    (l : List (CandidateSetEntry α)) : (sortByValueDesc l).Perm l := by
  induction l with
  | nil => exact List.Perm.refl _
  | cons e rest ih =>
    rw [sortByValueDesc]
    exact (insertDesc_perm e _).trans (ih.cons e)

theorem pairwise_insertDesc {α : Type} [LinearOrder α] (e : CandidateSetEntry α)
    (l : List (CandidateSetEntry α))
    (h : List.Pairwise (fun a b => b.value ≤ a.value) l) :
    List.Pairwise (fun a b => b.value ≤ a.value) (insertDesc e l) := by
  induction l with
  | nil => simp [insertDesc]
  | cons f rest ih =>
    rw [insertDesc]
    rw [List.pairwise_cons] at h
    by_cases hf : f.value ≤ e.value
    · rw [if_pos hf]
      refine List.pairwise_cons.2 ⟨?_, List.pairwise_cons.2 ⟨h.1, h.2⟩⟩
      intro x hx
      rcases List.mem_cons.1 hx with hx | hx
      · subst hx
        exact hf
      · exact le_trans (h.1 x hx) hf
    · rw [if_neg hf]
      refine List.pairwise_cons.2 ⟨?_, ih h.2⟩
      intro x hx
      rcases (insertDesc_perm e rest).mem_iff.1 hx |> List.mem_cons.1 with hx2 | hx2
      · subst hx2
        exact le_of_lt (lt_of_not_le hf)
      · exact h.1 x hx2

theorem pairwise_sortByValueDesc {α : Type} [LinearOrder α]
    (l : List (CandidateSetEntry α)) :
    List.Pairwise (fun a b => b.value ≤ a.value) (sortByValueDesc l) := by
  induction l with
  | nil => simp [sortByValueDesc]
  | cons e rest ih => exact pairwise_insertDesc e _ ih

theorem minScan_spec {α : Type} [LinearOrder α] (rest : List (CandidateSetEntry α)) :
    ∀ (i minIndex : Nat) (minValue : α),
      (minScan rest i minIndex minValue).2 ≤ minValue ∧
        (∀ e ∈ rest, (minScan rest i minIndex minValue).2 ≤ e.value) ∧
        ((minScan rest i minIndex minValue).1 = minIndex ∧
            (minScan rest i minIndex minValue).2 = minValue ∨
          ∃ j, ∃ hj : j < rest.length,
            rest[j].value = (minScan rest i minIndex minValue).2 ∧
            (minScan rest i minIndex minValue).1 = i + j) := by
  induction rest with
  | nil =>
    intro i minIndex minValue
    refine ⟨le_refl _, by simp, Or.inl ⟨rfl, rfl⟩⟩
  | cons e rest ih =>
    intro i minIndex minValue
    rw [minScan]
    by_cases he : e.value < minValue
    · rw [if_pos he]
      obtain ⟨h1, h2, h3⟩ := ih (i + 1) i e.value
      refine ⟨le_trans h1 (le_of_lt he), ?_, ?_⟩
      · intro x hx
        rcases List.mem_cons.1 hx with hx | hx
        · subst hx
          exact h1
        · exact h2 x hx
      · rcases h3 with ⟨h31, h32⟩ | ⟨j, hj, hjv, hji⟩
        · exact Or.inr ⟨0, by simp, by simp [h32], by omega⟩
        · exact Or.inr ⟨j + 1, by simp; omega, by simpa using hjv, by omega⟩
    · rw [if_neg he]
      obtain ⟨h1, h2, h3⟩ := ih (i + 1) minIndex minValue
      refine ⟨h1, ?_, ?_⟩
      · intro x hx
        rcases List.mem_cons.1 hx with hx | hx
        · subst hx
          exact le_trans h1 (le_of_not_lt he)
        · exact h2 x hx
      · rcases h3 with ⟨h31, h32⟩ | ⟨j, hj, hjv, hji⟩
        · exact Or.inl ⟨h31, h32⟩
        · exact Or.inr ⟨j + 1, by simp; omega, by simpa using hjv, by omega⟩

theorem add_preserves {α : Type} [LinearOrder α] [Zero α] (s : CandidateSet α)
    (sofar : List (List Nat × α)) (key : List Nat) (value : α)
    (hkey : key ≠ []) (hval : value ≠ 0)
    (hfresh : value ∉ sofar.map (·.2))
    (hlen : s.entries.length = min sofar.length s.size)
    (hsub : ∀ e ∈ s.entries, (e.key, e.value) ∈ sofar)
    (hnodup : (s.entries.map (·.value)).Nodup)
    (hdom : ∀ p ∈ sofar, p.2 ∈ s.entries.map (·.value) ∨
        (s.entries.length = s.size ∧ ∀ e ∈ s.entries, p.2 < e.value)) :
    ∃ t : CandidateSet α, s.add key value = .ok t ∧ t.size = s.size ∧
      t.entries.length = min (sofar.length + 1) s.size ∧
      (∀ e ∈ t.entries, (e.key, e.value) ∈ sofar ++ [(key, value)]) ∧
      (t.entries.map (·.value)).Nodup ∧
      (∀ p ∈ sofar ++ [(key, value)], p.2 ∈ t.entries.map (·.value) ∨
        (t.entries.length = t.size ∧ ∀ e ∈ t.entries, p.2 < e.value)) := by
  have hvnotL : value ∉ s.entries.map (·.value) := by
    intro hmem
    obtain ⟨e, he, hev⟩ := List.mem_map.1 hmem
    exact hfresh (List.mem_map.2 ⟨(e.key, e.value), hsub e he, by simpa using hev⟩)
  rw [CandidateSet.add, if_neg hkey, if_neg hval]
  by_cases hcap : s.entries.length < s.size
  · rw [if_pos hcap]
    refine ⟨⟨s.size, s.entries ++ [⟨key, value⟩]⟩, rfl, rfl, ?_, ?_, ?_, ?_⟩
    · simp only [List.length_append, List.length_cons, List.length_nil]
      omega
    · intro e he
      rcases List.mem_append.1 he with he | he
      · exact List.mem_append.2 (Or.inl (hsub e he))
      · simp only [List.mem_singleton] at he
        subst he
        exact List.mem_append.2 (Or.inr (by simp))
    · rw [List.map_append]
      refine (List.nodup_append).2 ⟨hnodup, by simp, ?_⟩
      intro x hx
      simp only [List.map_cons, List.map_nil, List.mem_singleton]
      intro hcx
      subst hcx
      exact hvnotL hx
    · intro p hp
      rcases List.mem_append.1 hp with hp | hp
      · rcases hdom p hp with hin | ⟨hfull, _⟩
        · exact Or.inl (by rw [List.map_append]; exact List.mem_append.2 (Or.inl hin))
        · omega
      · simp only [List.mem_singleton] at hp
        subst hp
        exact Or.inl (by rw [List.map_append]; simp)
  · rw [if_neg hcap]
    have hfull : s.entries.length = s.size := by omega
    have hsofar_ge : s.size ≤ sofar.length := by omega
    rcases hE : s.entries with _ | ⟨e0, rest⟩
    · rw [hE] at hfull hsub hnodup hdom hlen
      refine ⟨s, rfl, rfl, ?_, ?_, ?_, ?_⟩
      · rw [hE]
        simp only [List.length_nil] at hfull ⊢
        omega
      · rw [hE]
        simp
      · rw [hE]
        simp
      · intro p hp
        rw [hE]
        refine Or.inr ⟨by simp [← hfull], by simp⟩
    · simp only [hE]
      obtain ⟨hm1, hm2, hm3⟩ := minScan_spec rest 1 0 e0.value
      rcases hmm : minScan rest 1 0 e0.value with ⟨mi, mv⟩
      rw [hmm] at hm1 hm2 hm3
      dsimp only at hm1 hm2 hm3
      simp only [hmm]
      have hL0 : 0 < (e0 :: rest).length := by simp
      have hmlt : mi < (e0 :: rest).length := by
        rcases hm3 with ⟨h31, _⟩ | ⟨j, hj, _, hji⟩
        · rw [h31]; exact hL0
        · rw [hji]; simp; omega
      have hmval : (e0 :: rest)[mi].value = mv := by
        rcases hm3 with ⟨h31, h32⟩ | ⟨j, hj, hjv, hji⟩
        · have h0 : mi = 0 := h31
          subst h0
          rw [h32]
          rfl
        · have h0 : mi = j + 1 := by omega
          subst h0
          rw [List.getElem_cons_succ]
          exact hjv
      have hmin_le : ∀ e ∈ e0 :: rest, mv ≤ e.value := by
        intro e he
        rcases List.mem_cons.1 he with he | he
        · subst he; exact hm1
        · exact hm2 e he
      have hlenL : (e0 :: rest).length = s.size := by rw [← hE]; exact hfull
      by_cases hv : mv < value
      · rw [if_pos hv]
        have hset : (e0 :: rest).set mi ⟨key, value⟩ =
            (e0 :: rest).take mi ++ ⟨key, value⟩ :: (e0 :: rest).drop (mi + 1) := by
          rw [List.set_eq_take_append_cons_drop, if_pos hmlt]
        have hsplit : e0 :: rest =
            (e0 :: rest).take mi ++ (e0 :: rest)[mi] :: (e0 :: rest).drop (mi + 1) := by
          rw [List.getElem_cons_drop, List.take_append_drop]
        refine ⟨⟨s.size, (e0 :: rest).set mi ⟨key, value⟩⟩, rfl, rfl, ?_, ?_, ?_, ?_⟩
        · simp only [List.length_set]
          rw [hlenL]
          omega
        · intro e he
          rw [hset] at he
          rcases List.mem_append.1 he with he | he
          · refine List.mem_append.2 (Or.inl (hsub e ?_))
            rw [hE]
            exact List.mem_of_mem_take he
          · rcases List.mem_cons.1 he with he | he
            · subst he
              exact List.mem_append.2 (Or.inr (by simp))
            · refine List.mem_append.2 (Or.inl (hsub e ?_))
              rw [hE]
              exact List.mem_of_mem_drop he
        · rw [hset, List.map_append, List.map_cons]
          have hperm2 : List.Perm
              (((e0 :: rest).take mi).map (·.value) ++
                value :: ((e0 :: rest).drop (mi + 1)).map (·.value))
              (value :: (((e0 :: rest).take mi).map (·.value) ++
                ((e0 :: rest).drop (mi + 1)).map (·.value))) := List.perm_middle
          rw [hperm2.nodup_iff]
          have hpermold : List.Perm ((e0 :: rest).map (·.value))
              ((e0 :: rest)[mi].value :: (((e0 :: rest).take mi).map (·.value) ++
                ((e0 :: rest).drop (mi + 1)).map (·.value))) := by
            conv_lhs => rw [hsplit]
            rw [List.map_append, List.map_cons]
            exact List.perm_middle
          have hnodupL : ((e0 :: rest).map (·.value)).Nodup := by rw [← hE]; exact hnodup
          have hnodup2 := hpermold.nodup_iff.1 hnodupL
          rw [List.nodup_cons] at hnodup2 ⊢
          refine ⟨?_, hnodup2.2⟩
          intro hvin
          have : value ∈ ((e0 :: rest).map (·.value)) := by
            rw [hpermold.mem_iff]
            exact List.mem_cons.2 (Or.inr hvin)
          rw [← hE] at this
          exact hvnotL this
        · intro p hp
          have hmem_new : (⟨key, value⟩ : CandidateSetEntry α) ∈
              (e0 :: rest).set mi ⟨key, value⟩ := by
            rw [hset]
            exact List.mem_append.2 (Or.inr (List.mem_cons.2 (Or.inl rfl)))
          rcases List.mem_append.1 hp with hp | hp
          · rcases hdom p hp with hin | ⟨_, hall⟩
            · rw [hE] at hin
              by_cases hpe : p.2 = (e0 :: rest)[mi].value
              · refine Or.inr ⟨by rw [List.length_set]; exact hlenL, ?_⟩
                intro e he
                rw [hset] at he
                have hnodupL : ((e0 :: rest).map (·.value)).Nodup := by
                  rw [← hE]
                  exact hnodup
                have hpermold : List.Perm ((e0 :: rest).map (·.value))
                    ((e0 :: rest)[mi].value ::
                      (((e0 :: rest).take mi).map (·.value) ++
                        ((e0 :: rest).drop (mi + 1)).map (·.value))) := by
                  conv_lhs => rw [hsplit]
                  rw [List.map_append, List.map_cons]
                  exact List.perm_middle
                have hnd2 := hpermold.nodup_iff.1 hnodupL
                rw [List.nodup_cons] at hnd2
                rcases List.mem_append.1 he with he | he
                · have hev : e.value ∈ ((e0 :: rest).take mi).map (·.value) :=
                    List.mem_map.2 ⟨e, he, rfl⟩
                  have hne : (e0 :: rest)[mi].value ≠ e.value := by
                    intro hc
                    exact hnd2.1 (hc ▸ List.mem_append.2 (Or.inl hev))
                  have hle : (e0 :: rest)[mi].value ≤ e.value := by
                    rw [hmval]
                    exact hmin_le e (List.mem_of_mem_take he)
                  rw [hpe]
                  exact lt_of_le_of_ne hle hne
                · rcases List.mem_cons.1 he with he | he
                  · subst he
                    rw [hpe, hmval]
                    exact hv
                  · have hev : e.value ∈ ((e0 :: rest).drop (mi + 1)).map (·.value) :=
                      List.mem_map.2 ⟨e, he, rfl⟩
                    have hne : (e0 :: rest)[mi].value ≠ e.value := by
                      intro hc
                      exact hnd2.1 (hc ▸ List.mem_append.2 (Or.inr hev))
                    have hle : (e0 :: rest)[mi].value ≤ e.value := by
                      rw [hmval]
                      exact hmin_le e (List.mem_of_mem_drop he)
                    rw [hpe]
                    exact lt_of_le_of_ne hle hne
              · refine Or.inl ?_
                obtain ⟨e, he, hev⟩ := List.mem_map.1 hin
                rw [hsplit] at he
                rw [hset, List.map_append, List.map_cons]
                rcases List.mem_append.1 he with he | he
                · exact List.mem_append.2 (Or.inl (List.mem_map.2 ⟨e, he, hev⟩))
                · rcases List.mem_cons.1 he with he | he
                  · exfalso
                    apply hpe
                    rw [← hev, he]
                  · exact List.mem_append.2
                      (Or.inr (List.mem_cons.2 (Or.inr (List.mem_map.2 ⟨e, he, hev⟩))))
            · refine Or.inr ⟨by rw [List.length_set]; exact hlenL, ?_⟩
              intro e he
              rw [hset] at he
              rcases List.mem_append.1 he with he | he
              · refine hall e ?_
                rw [hE]
                exact List.mem_of_mem_take he
              · rcases List.mem_cons.1 he with he | he
                · subst he
                  simp only
                  calc p.2 < (e0 :: rest)[mi].value := by
                        refine hall _ ?_
                        rw [hE]
                        exact List.getElem_mem _
                    _ = mv := hmval
                    _ < value := hv
                · refine hall e ?_
                  rw [hE]
                  exact List.mem_of_mem_drop he
          · simp only [List.mem_singleton] at hp
            subst hp
            exact Or.inl (List.mem_map.2 ⟨⟨key, value⟩, hmem_new, rfl⟩)
      · rw [if_neg hv]
        refine ⟨⟨s.size, e0 :: rest⟩, by rw [← hE], rfl, ?_, ?_, ?_, ?_⟩
        · rw [hlenL]
          omega
        · intro e he
          rw [← hE] at he
          exact List.mem_append.2 (Or.inl (hsub e he))
        · rw [← hE]
          exact hnodup
        · intro p hp
          rcases List.mem_append.1 hp with hp | hp
          · rcases hdom p hp with hin | ⟨_, hall⟩
            · rw [hE] at hin
              exact Or.inl hin
            · refine Or.inr ⟨hlenL, ?_⟩
              intro e he
              rw [← hE] at he
              exact hall e he
          · simp only [List.mem_singleton] at hp
            subst hp
            refine Or.inr ⟨hlenL, ?_⟩
            intro e he
            have hvne : value ≠ mv := by
              intro hc
              apply hvnotL
              rw [hE]
              refine List.mem_map.2 ⟨(e0 :: rest)[mi], List.getElem_mem _, ?_⟩
              rw [hmval, ← hc]
            have : value < mv := lt_of_le_of_ne (le_of_not_lt hv) hvne
            exact lt_of_lt_of_le this (hmin_le e he)

theorem addAll_inv {α : Type} [LinearOrder α] [Zero α] :
    ∀ (items sofar : List (List Nat × α)) (s : CandidateSet α),
      (∀ p ∈ items, p.1 ≠ [] ∧ p.2 ≠ 0) →
      ((sofar ++ items).map (·.2)).Nodup →
      s.entries.length = min sofar.length s.size →
      (∀ e ∈ s.entries, (e.key, e.value) ∈ sofar) →
      (s.entries.map (·.value)).Nodup →
      (∀ p ∈ sofar, p.2 ∈ s.entries.map (·.value) ∨
        (s.entries.length = s.size ∧ ∀ e ∈ s.entries, p.2 < e.value)) →
      ∃ t : CandidateSet α, s.addAll items = .ok t ∧ t.size = s.size ∧
        t.entries.length = min (sofar ++ items).length s.size ∧
        (∀ e ∈ t.entries, (e.key, e.value) ∈ sofar ++ items) ∧
        (t.entries.map (·.value)).Nodup ∧
        (∀ p ∈ sofar ++ items, p.2 ∈ t.entries.map (·.value) ∨
          (t.entries.length = t.size ∧ ∀ e ∈ t.entries, p.2 < e.value)) := by
  intro items
  induction items with
  | nil =>
    intro sofar s _ _ h1 h2 h3 h4
    exact ⟨s, rfl, rfl, by simpa using h1, by simpa using h2, h3, by simpa using h4⟩
  | cons p rest ih =>
    intro sofar s hvalid hnodupall hlen hsub hnodup hdom
    have hfresh : p.2 ∉ sofar.map (·.2) := by
      intro hc
      have hd := List.disjoint_of_nodup_append
        (by rw [← List.map_append]; exact hnodupall)
      exact hd hc (by simp)
    obtain ⟨t, hadd, hsize, hlen2, hsub2, hnodup2, hdom2⟩ :=
      add_preserves s sofar p.1 p.2 (hvalid p (by simp)).1 (hvalid p (by simp)).2
        hfresh hlen hsub hnodup hdom
    have hassoc : sofar ++ p :: rest = (sofar ++ [p]) ++ rest := by simp
    obtain ⟨u, haddAll, husize, hulen, husub, hunodup, hudom⟩ :=
      ih (sofar ++ [p]) t (fun q hq => hvalid q (by simp [hq]))
        (by rw [← hassoc]; exact hnodupall)
        (by rw [hsize]; simpa using hlen2)
        (by simpa using hsub2)
        hnodup2
        (by simpa using hdom2)
    refine ⟨u, ?_, by rw [husize, hsize], ?_, ?_, hunodup, ?_⟩
    · rw [CandidateSet.addAll, List.foldlM_cons]
      show (s.add p.1 p.2 >>= fun t => List.foldlM (fun t q => t.add q.1 q.2) t rest) = .ok u
      rw [hadd]
      show List.foldlM (fun t q => t.add q.1 q.2) t rest = .ok u
      rw [← CandidateSet.addAll]
      exact haddAll
    · rw [hulen, ← hassoc, hsize]
    · intro e he
      have := husub e he
      rwa [← hassoc] at this
    · intro q hq
      refine hudom q ?_
      rwa [hassoc] at hq

/-- C3: bounded top-K selection.  add rejects an empty key or a value of 0;
with capacity K > 0 and more than K insertions of pairwise-distinct nonzero
values with nonempty keys, every add succeeds, count() is exactly K, and
getEntries() lists K entries taken from the inserted pairs, sorted descending
by value, with pairwise distinct values, such that every inserted value is
either among them or strictly below all of them — i.e. exactly the K largest
values ever inserted, in descending order. -/
theorem candidateSet_topK (K : Nat) (hK : 0 < K) (items : List (List Nat × ℚ))
    (hN : K < items.length)
    (hvalid : ∀ p ∈ items, p.1 ≠ [] ∧ p.2 ≠ 0)
    (hdistinct : (items.map (·.2)).Nodup) :
    CandidateSet.create ℚ K = .ok ⟨K, []⟩ ∧
      (∀ (s : CandidateSet ℚ) (v : ℚ), s.add [] v =
        .error (.invariantFailed "Key must be provided.")) ∧
      (∀ (s : CandidateSet ℚ) (k : List Nat), k ≠ [] → s.add k 0 =
        .error (.invariantFailed "Value must be provided.")) ∧
      ∃ t : CandidateSet ℚ, (CandidateSet.mk K []).addAll items = .ok t ∧
        t.count = K ∧
        t.getEntries.length = K ∧
        List.Pairwise (fun a b => b.value ≤ a.value) t.getEntries ∧
        (t.getEntries.map (·.value)).Nodup ∧
        (∀ e ∈ t.getEntries, (e.key, e.value) ∈ items) ∧
        (∀ p ∈ items, p.2 ∈ t.getEntries.map (·.value) ∨
          ∀ e ∈ t.getEntries, p.2 < e.value) := by
  refine ⟨by rw [CandidateSet.create, if_neg (by omega)], ?_, ?_, ?_⟩
  · intro s v
    rw [CandidateSet.add, if_pos rfl]
  · intro s k hk
    rw [CandidateSet.add, if_neg hk, if_pos rfl]
  · obtain ⟨t, haddAll, hsize, hlen, hsub, hnodup, hdom⟩ :=
      addAll_inv items [] ⟨K, []⟩ hvalid (by simpa using hdistinct) (by simp) (by simp)
        (by simp) (by simp)
    have hperm := sortByValueDesc_perm t.entries
    simp only [List.nil_append] at hlen hsub hdom
    refine ⟨t, haddAll, ?_, ?_, pairwise_sortByValueDesc _, ?_, ?_, ?_⟩
    · rw [CandidateSet.count, hlen]
      omega
    · rw [CandidateSet.getEntries, hperm.length_eq, hlen]
      omega
    · rw [CandidateSet.getEntries]
      exact ((hperm.map (·.value)).nodup_iff).2 hnodup
    · intro e he
      exact hsub e (hperm.mem_iff.1 he)
    · intro p hp
      rcases hdom p hp with hin | ⟨_, hall⟩
      · refine Or.inl ?_
        rw [CandidateSet.getEntries]
        exact ((hperm.map (·.value)).mem_iff).2 hin
      · refine Or.inr ?_
        intro e he
        exact hall e (hperm.mem_iff.1 he)

/-- Witness for `candidateSet_topK`: four distinct values into capacity 2
keep exactly the two largest, 7 then 5, in that order. -/
theorem candidateSet_topK_witness :
    0 < 2 ∧ (2:Nat) < 4 ∧
      (CandidateSet.create ℚ 2 = .ok ⟨2, []⟩ ∧
        (∀ (s : CandidateSet ℚ) (v : ℚ), s.add [] v =
          .error (.invariantFailed "Key must be provided.")) ∧
        (∀ (s : CandidateSet ℚ) (k : List Nat), k ≠ [] → s.add k 0 =
          .error (.invariantFailed "Value must be provided.")) ∧
        ∃ t : CandidateSet ℚ,
          (CandidateSet.mk 2 []).addAll [([97], 5), ([98], 3), ([99], 7), ([100], 1)] =
            .ok t ∧
          t.count = 2 ∧
          t.getEntries.length = 2 ∧
          List.Pairwise (fun a b => b.value ≤ a.value) t.getEntries ∧
          (t.getEntries.map (·.value)).Nodup ∧
          (∀ e ∈ t.getEntries, (e.key, e.value) ∈
            [([97], 5), ([98], 3), ([99], 7), ([100], 1)]) ∧
          (∀ p ∈ ([([97], 5), ([98], 3), ([99], 7), ([100], 1)] : List (List Nat × ℚ)),
            p.2 ∈ t.getEntries.map (·.value) ∨
            ∀ e ∈ t.getEntries, p.2 < e.value)) :=
  ⟨by decide, by decide,
    candidateSet_topK 2 (by decide) [([97], 5), ([98], 3), ([99], 7), ([100], 1)]
      (by decide) (by decide) (by decide)⟩

/-- The dot-product accumulator of the engine's cosineSimilarity loop. -/
def dotProduct (a b : List ℝ) : ℝ :=
  (List.zipWith (· * ·) a b).sum

/-- The magnitude accumulators of the loop, before the square root. -/
def sumSquares (a : List ℝ) : ℝ :=
  (a.map (fun x => x * x)).sum

open Classical in
/-- Source: engine.ts, cosineSimilarity: throws on unequal lengths, returns 0
when either magnitude is zero, and otherwise dot(a,b) / (|a|·|b|). -/
noncomputable def cosineSimilarity (a b : List ℝ) : Except JsError ℝ :=
  if a.length ≠ b.length then .error .dimensionMismatch
  else
    let magnitudeA := Real.sqrt (sumSquares a)
    let magnitudeB := Real.sqrt (sumSquares b)
    if magnitudeA = 0 ∨ magnitudeB = 0 then .ok 0
    else .ok (dotProduct a b / (magnitudeA * magnitudeB))

theorem dotProduct_cons (x y : ℝ) (a b : List ℝ) :
    dotProduct (x :: a) (y :: b) = x * y + dotProduct a b := by
  simp [dotProduct]

theorem sumSquares_cons (x : ℝ) (a : List ℝ) :
    sumSquares (x :: a) = x * x + sumSquares a := by
  simp [sumSquares]

theorem sumSquares_nonneg (a : List ℝ) : 0 ≤ sumSquares a := by
  induction a with
  | nil => simp [sumSquares]
  | cons x a ih =>
    rw [sumSquares_cons]
    exact add_nonneg (mul_self_nonneg x) ih

theorem dotProduct_self (a : List ℝ) : dotProduct a a = sumSquares a := by
  induction a with
  | nil => simp [dotProduct, sumSquares]
  | cons x a ih => rw [dotProduct_cons, sumSquares_cons, ih]

theorem dotProduct_sq_le (a : List ℝ) :
    ∀ b : List ℝ, dotProduct a b ^ 2 ≤ sumSquares a * sumSquares b := by
  induction a with
  | nil =>
    intro b
    simp [dotProduct]
    exact mul_nonneg (by simp [sumSquares]) (sumSquares_nonneg b)
  | cons x a ih =>
    intro b
    rcases b with _ | ⟨y, b⟩
    · simp [dotProduct]
      exact mul_nonneg (sumSquares_nonneg _) (by simp [sumSquares])
    · rw [dotProduct_cons, sumSquares_cons, sumSquares_cons]
      have hA := sumSquares_nonneg a
      have hB := sumSquares_nonneg b
      have hd := ih b
      rcases eq_or_lt_of_le hA with hA0 | hApos
      · have hd0 : dotProduct a b = 0 := by
          have : dotProduct a b ^ 2 ≤ 0 := by
            calc dotProduct a b ^ 2 ≤ sumSquares a * sumSquares b := hd
              _ = 0 := by rw [← hA0, zero_mul]
          exact pow_eq_zero_iff (by norm_num) |>.1 (le_antisymm this (sq_nonneg _))
        rw [hd0, ← hA0]
        nlinarith [mul_self_nonneg x, mul_self_nonneg y, hB,
          mul_nonneg (mul_self_nonneg x) hB]
      · nlinarith [sq_nonneg (x * dotProduct a b - sumSquares a * y),
          mul_nonneg (add_nonneg (mul_self_nonneg x) hA)
            (sub_nonneg.2 hd), hApos]

theorem abs_dotProduct_le (a b : List ℝ) :
    |dotProduct a b| ≤ Real.sqrt (sumSquares a) * Real.sqrt (sumSquares b) := by
  rw [← Real.sqrt_mul_self (abs_nonneg (dotProduct a b))]
  rw [← Real.sqrt_mul (sumSquares_nonneg a)]
  refine Real.sqrt_le_sqrt ?_
  calc |dotProduct a b| * |dotProduct a b| = dotProduct a b ^ 2 := by
        rw [← abs_mul, abs_mul_self, sq]
    _ ≤ sumSquares a * sumSquares b := dotProduct_sq_le a b

/-- C7: cosineSimilarity fails with DimensionMismatch exactly when the two
lengths differ; with equal lengths it returns exactly 0 when either vector
has zero magnitude (zero sum of squares); for non-zero-magnitude vectors the
returned value lies in [-1, 1]; and cosineSimilarity a a returns exactly 1
for a non-zero a. -/
theorem cosineSimilarity_spec (a b : List ℝ) :
    (cosineSimilarity a b = .error .dimensionMismatch ↔ a.length ≠ b.length) ∧
      (a.length = b.length → sumSquares a = 0 ∨ sumSquares b = 0 →
        cosineSimilarity a b = .ok 0) ∧
      (a.length = b.length → sumSquares a ≠ 0 → sumSquares b ≠ 0 →
        ∃ r, cosineSimilarity a b = .ok r ∧ -1 ≤ r ∧ r ≤ 1) ∧
      (sumSquares a ≠ 0 → cosineSimilarity a a = .ok 1) := by
  have hA := sumSquares_nonneg a
  have hB := sumSquares_nonneg b
  refine ⟨⟨?_, ?_⟩, ?_, ?_, ?_⟩
  · intro herr
    by_contra hlen
    rw [cosineSimilarity, if_neg (by omega)] at herr
    by_cases hz : Real.sqrt (sumSquares a) = 0 ∨ Real.sqrt (sumSquares b) = 0
    · rw [if_pos hz] at herr
      exact Except.noConfusion herr
    · rw [if_neg hz] at herr
      exact Except.noConfusion herr
  · intro hlen
    rw [cosineSimilarity, if_pos hlen]
  · intro hlen hz
    rw [cosineSimilarity, if_neg (by omega)]
    have hz2 : Real.sqrt (sumSquares a) = 0 ∨ Real.sqrt (sumSquares b) = 0 := by
      rcases hz with hz | hz
      · exact Or.inl (by rw [hz, Real.sqrt_zero])
      · exact Or.inr (by rw [hz, Real.sqrt_zero])
    rw [if_pos hz2]
  · intro hlen ha hb
    have hsa : 0 < Real.sqrt (sumSquares a) :=
      Real.sqrt_pos.2 (lt_of_le_of_ne hA (Ne.symm ha))
    have hsb : 0 < Real.sqrt (sumSquares b) :=
      Real.sqrt_pos.2 (lt_of_le_of_ne hB (Ne.symm hb))
    have habs := abs_dotProduct_le a b
    refine ⟨dotProduct a b / (Real.sqrt (sumSquares a) * Real.sqrt (sumSquares b)),
      ?_, ?_, ?_⟩
    · rw [cosineSimilarity, if_neg (by omega),
        if_neg (by push_neg; exact ⟨ne_of_gt hsa, ne_of_gt hsb⟩)]
    · rw [le_div_iff₀ (mul_pos hsa hsb)]
      have := (abs_le.1 habs).1
      linarith
    · rw [div_le_one (mul_pos hsa hsb)]
      exact le_trans (le_abs_self _) habs
  · intro ha
    have hsa : 0 < Real.sqrt (sumSquares a) :=
      Real.sqrt_pos.2 (lt_of_le_of_ne hA (Ne.symm ha))
    rw [cosineSimilarity, if_neg (by omega),
      if_neg (by push_neg; exact ⟨ne_of_gt hsa, ne_of_gt hsa⟩)]
    rw [dotProduct_self, Real.mul_self_sqrt hA, div_self ha]

/-- Witness for `cosineSimilarity_spec`: the vector [1, 0] compared with
itself gives exactly 1, and comparing with [0, 0] gives exactly 0. -/
theorem cosineSimilarity_spec_witness :
    cosineSimilarity [1, 0] [1, 0] = .ok 1 ∧
      cosineSimilarity [1, 0] [0, 0] = .ok 0 :=
  ⟨(cosineSimilarity_spec [1, 0] [1, 0]).2.2.2 (by norm_num [sumSquares]),
    (cosineSimilarity_spec [1, 0] [0, 0]).2.1 rfl
      (Or.inr (by norm_num [sumSquares]))⟩

/-- Source: binary-file-reader.ts, chunkSize = 64 KiB. -/
def chunkSize : Nat := 64 * 1024

/-- Source: types.ts, EmbeddingEntry.  The binary format stores no text and
no timestamp, so parsing materialises text := "" and timestamp := 0.  Keys
are modelled by their UTF-8 bytes; embeddings are the decoded float32 values
as exact rationals. -/
structure EmbeddingEntry where
  key : List Nat
  text : String
  embedding : List ℚ
  timestamp : Nat
deriving DecidableEq

/-- Decodes a 32-bit IEEE-754 single-precision bit pattern to its exact
rational value (DataView.getFloat32 composed with the little-endian byte
read).  Infinities and NaNs (exponent 255), which no claim exercises, are
mapped to 0. -/
def f32ToRat (w : Nat) : ℚ :=
  let sign : Nat := w / 2 ^ 31 % 2
  let expo : Nat := w / 2 ^ 23 % 2 ^ 8
  let mant : Nat := w % 2 ^ 23
  let mag : ℚ :=
    if expo = 0 then (mant : ℚ) / 2 ^ 149
    else if expo = 255 then 0
    else (2 ^ expo : ℚ) / 2 ^ 150 * (2 ^ 23 + (mant : ℚ))
  if sign = 1 then -mag else mag

/-- Source: binary-file-reader.ts, parseRecordFromView (and parseRecord,
which delegates to it): reads the 2-byte key length, the key bytes and
`dimension` float32 values from the record view; the try/catch that returns
null when a read falls outside the view is modelled by explicit bounds
checks. -/
def parseRecordFromView (bytes : List Nat) (dimension : Nat) :
    Option EmbeddingEntry :=
  if bytes.length < 2 then none
  else
    let keyLength := readUInt16LE bytes 0
    if bytes.length < 2 + keyLength + 4 * dimension then none
    else
      let key := sliceBytes bytes 2 keyLength
      let embedding := (List.range dimension).map fun i =>
        f32ToRat (readUInt32LE bytes (2 + keyLength + 4 * i))
      some ⟨key, "", embedding, 0⟩

/-- Source: binary-file-reader.ts, the inner while-loop of entries(): one
backward pass inside the loaded window.  `ws` is the window's start offset in
the file and `chunkPos` the backward-scan position relative to `ws` (a
JavaScript number, possibly negative after a subtraction).  The window bytes
are exactly file[ws .. ws+chunkPos], so window reads are modelled as file
reads at ws-relative offsets; a record straddling the window is re-read
directly from the file (same bytes), and a direct read at a negative
position is the node range error.  `none` means the fuel ran out: a call
that returns `none` for every fuel diverges. -/
def scanChunk (file : List Nat) (dim : Nat) (ws : Int) :
    Nat → Int → List (List Nat) → List EmbeddingEntry →
    Option (Except JsError (Int × List (List Nat) × List EmbeddingEntry))
  | 0, _, _, _ => none
  | fuel + 1, chunkPos, seen, acc =>
    if chunkPos > 0 then
      if chunkPos < 4 then some (.ok (chunkPos, seen, acc))
      else
        let recordLength : Int := readUInt32LE file (ws + chunkPos - 4).toNat
        if recordLength > chunkPos then
          let recordStart := ws + chunkPos - recordLength
          if recordStart < 0 then some (.error .outOfRange)
          else
            match parseRecordFromView
                (sliceBytes file recordStart.toNat recordLength.toNat) dim with
            | some r =>
              if r.key ∈ seen then
                scanChunk file dim ws fuel (chunkPos - recordLength) seen acc
              else
                scanChunk file dim ws fuel (chunkPos - recordLength)
                  (r.key :: seen) (acc ++ [r])
            | none => scanChunk file dim ws fuel (chunkPos - recordLength) seen acc
        else
          let recordStart := chunkPos - recordLength
          match parseRecordFromView
              (sliceBytes file (ws + recordStart).toNat recordLength.toNat) dim with
          | some r =>
            if r.key ∈ seen then
              scanChunk file dim ws fuel (chunkPos - recordLength) seen acc
            else
              scanChunk file dim ws fuel (chunkPos - recordLength)
                (r.key :: seen) (acc ++ [r])
          | none => scanChunk file dim ws fuel (chunkPos - recordLength) seen acc
    else some (.ok (chunkPos, seen, acc))

/-- Source: binary-file-reader.ts, the outer while-loop of entries():
repeatedly load a backward window of up to chunkSize bytes ending at the
current position (never crossing the 16-byte header), scan it, and continue
at the position the inner loop stopped at. -/
def scanFile (file : List Nat) (dim : Nat) :
    Nat → Int → List (List Nat) → List EmbeddingEntry →
    Option (Except JsError (List EmbeddingEntry))
  | 0, _, _, _ => none
  | fuel + 1, currentPosition, seen, acc =>
    if currentPosition > 16 then
      let chunkStart := max 16 (currentPosition - (chunkSize : Int))
      match scanChunk file dim chunkStart fuel (currentPosition - chunkStart) seen acc with
      | none => none
      | some (.error e) => some (.error e)
      | some (.ok (chunkPos, seen2, acc2)) =>
        scanFile file dim fuel (chunkStart + chunkPos) seen2 acc2
    else some (.ok acc)

/-- Source: binary-file-reader.ts, entries(): read the header, return the
empty sequence for a header-only file, and otherwise scan backward from the
end of the file in chunks, deduplicating by key (newest wins). -/
def readerEntries (file : List Nat) (fuel : Nat) :
    Option (Except JsError (List EmbeddingEntry)) :=
  match readHeader file with
  | .error e => some (.error e)
  | .ok h =>
    if file.length ≤ 16 then some (.ok [])
    else scanFile file h.dimension fuel (file.length : Int) [] []

theorem scanFile_truncated_loop (g : Nat) :
    scanFile (writeHeader 1 ++ [0, 0, 0]) 1 g 19 [] [] = none := by
  induction g with
  | zero => rfl
  | succ f ih =>
    rw [scanFile]
    rw [if_pos (by norm_num)]
    rw [show max 16 ((19 : Int) - (chunkSize : Int)) = 16 by decide]
    dsimp only
    rcases f with _ | g
    · rfl
    · rw [show scanChunk (writeHeader 1 ++ [0, 0, 0]) 1 16 (g + 1) ((19 : Int) - 16) [] [] =
          some (.ok (3, [], [])) by
        rw [show (19 : Int) - 16 = 3 by decide, scanChunk]
        rw [if_pos (by decide), if_pos (by decide)]]
      dsimp only
      rw [show (16 : Int) + 3 = 19 by decide]
      exact ih

/-- C5 (refuted): the claim says that when fewer than 4 bytes remain before
the header boundary the iteration stops silently; on a file that is a valid
dimension-1 header followed by a 3-byte truncated tail (a crash during the
very first record append), the reverse reader instead loops forever: the
inner loop breaks without advancing, the outer loop recomputes the same
window, and no fuel bound suffices — entries() neither stops nor raises. -/
theorem readerEntries_truncated_tail_diverges :
    ∀ fuel : Nat, readerEntries (writeHeader 1 ++ [0, 0, 0]) fuel = none := by
  intro fuel
  rw [readerEntries]
  rw [show readHeader (writeHeader 1 ++ [0, 0, 0]) = .ok ⟨1, 1⟩ from by decide]
  dsimp only
  rw [if_neg (by decide)]
  have hl : (writeHeader 1 ++ [0, 0, 0]).length = 19 := by decide
  rw [hl]
  exact scanFile_truncated_loop fuel

/-- A record of the store at the model level: key bytes and float32 words. -/
structure StoredRecord where
  key : List Nat
  embedding : List Nat
deriving DecidableEq

def encRecord (r : StoredRecord) : List Nat :=
  writeRecordBytes r.key r.embedding

def recLen (r : StoredRecord) : Nat :=
  calculateRecordLength r.key.length r.embedding.length

/-- A file of well-formed records: the one writeRecord produces when the key
fits the 16-bit length field, the embedding has the header's dimension with
genuine 32-bit words, and the record length fits the 32-bit footer. -/
abbrev WFRecord (dim : Nat) (r : StoredRecord) : Prop :=
  r.key.length ≤ 65535 ∧ r.embedding.length = dim ∧
    (∀ w ∈ r.embedding, w < 4294967296) ∧ recLen r < 4294967296

def encLen (rs : List StoredRecord) : Nat :=
  ((rs.map encRecord).flatten).length

def encFile (dim : Nat) (rs : List StoredRecord) : List Nat :=
  writeHeader dim ++ (rs.map encRecord).flatten

/-- Byte position of the boundary after the records `rs`. -/
def filePos (rs : List StoredRecord) : Nat :=
  16 + encLen rs

def toEntry (r : StoredRecord) : EmbeddingEntry :=
  ⟨r.key, "", r.embedding.map f32ToRat, 0⟩

/-- The deduplication the reverse reader performs: keep the first occurrence
of each key (newest first), threading the seen-key set. -/
def dedupScan : List EmbeddingEntry → List (List Nat) →
    List EmbeddingEntry × List (List Nat)
  | [], seen => ([], seen)
  | e :: rest, seen =>
    if e.key ∈ seen then dedupScan rest seen
    else
      ((e :: (dedupScan rest (e.key :: seen)).1), (dedupScan rest (e.key :: seen)).2)

theorem length_encRecord (r : StoredRecord) : (encRecord r).length = recLen r :=
  length_writeRecordBytes r.key r.embedding

theorem recLen_ge (r : StoredRecord) : 6 ≤ recLen r := by
  rw [recLen, calculateRecordLength]
  omega

theorem encLen_append (rs ss : List StoredRecord) :
    encLen (rs ++ ss) = encLen rs + encLen ss := by
  rw [encLen, encLen, encLen, List.map_append, List.flatten_append, List.length_append]

theorem encLen_singleton (r : StoredRecord) : encLen [r] = recLen r := by
  rw [encLen]
  simp [length_encRecord]

theorem encFile_split (dim : Nat) (pre : List StoredRecord) (r : StoredRecord)
    (post : List StoredRecord) :
    encFile dim (pre ++ r :: post) =
      (writeHeader dim ++ (pre.map encRecord).flatten) ++ encRecord r ++
        (post.map encRecord).flatten := by
  rw [encFile, List.map_append, List.flatten_append, List.map_cons, List.flatten_cons]
  simp [List.append_assoc]

theorem length_writeHeader (dim : Nat) : (writeHeader dim).length = 16 := by
  rw [writeHeader]
  rfl

theorem length_encFile (dim : Nat) (rs : List StoredRecord) :
    (encFile dim rs).length = filePos rs := by
  rw [encFile, List.length_append, length_writeHeader, filePos, encLen]

theorem footer_read (A B : List Nat) (r : StoredRecord)
    (hlt : recLen r < 4294967296) :
    readUInt32LE (A ++ encRecord r ++ B) (A.length + recLen r - 4) = recLen r := by
  have hP : A ++ encRecord r ++ B =
      (A ++ (uint16LEBytes r.key.length ++ r.key ++ r.embedding.flatMap uint32LEBytes)) ++
        (uint32LEBytes (recLen r) ++ B) := by
    rw [encRecord, writeRecordBytes]
    simp [List.append_assoc, recLen]
  have hlenP : (A ++ (uint16LEBytes r.key.length ++ r.key ++
      r.embedding.flatMap uint32LEBytes)).length = A.length + recLen r - 4 := by
    simp only [List.length_append, length_uint16LEBytes, length_flatMap_uint32]
    rw [recLen, calculateRecordLength]
    omega
  rw [hP, show A.length + recLen r - 4 =
    (A ++ (uint16LEBytes r.key.length ++ r.key ++
      r.embedding.flatMap uint32LEBytes)).length + 0 by rw [hlenP]; omega]
  rw [readUInt32LE_append]
  rw [show (0 : Nat) = (0 : Nat) from rfl]
  calc readUInt32LE (uint32LEBytes (recLen r) ++ B) 0 = recLen r % 4294967296 :=
        readUInt32LE_uint32LEBytes _ _
    _ = recLen r := Nat.mod_eq_of_lt hlt

theorem record_slice (A B : List Nat) (r : StoredRecord) :
    sliceBytes (A ++ encRecord r ++ B) A.length (recLen r) = encRecord r := by
  rw [sliceBytes, List.append_assoc, List.drop_left,
    show recLen r = (encRecord r).length from (length_encRecord r).symm]
  exact List.take_left _ _

theorem parse_encRecord (dim : Nat) (r : StoredRecord) (h1 : r.key.length ≤ 65535)
    (h2 : r.embedding.length = dim) (h3 : ∀ w ∈ r.embedding, w < 4294967296) :
    parseRecordFromView (encRecord r) dim = some (toEntry r) := by
  have hlen : (encRecord r).length = recLen r := length_encRecord r
  have hrl : recLen r = 2 + r.key.length + r.embedding.length * 4 + 4 := rfl
  rw [parseRecordFromView]
  rw [if_neg (by rw [hlen]; omega)]
  have hkl : readUInt16LE (encRecord r) 0 = r.key.length := by
    rw [encRecord, read16_record]
    omega
  simp only [hkl]
  rw [if_neg (by rw [hlen]; omega)]
  have hkey : sliceBytes (encRecord r) 2 r.key.length = r.key := by
    rw [encRecord]
    exact sliceBytes_record_key _ _
  have hemb : ((List.range dim).map fun i =>
      f32ToRat (readUInt32LE (encRecord r) (2 + r.key.length + 4 * i))) =
      r.embedding.map f32ToRat := by
    refine List.ext_getElem (by simp [h2]) ?_
    intro n hn1 hn2
    simp only [List.getElem_map, List.getElem_range]
    have hn : n < r.embedding.length := by
      simp only [List.length_map] at hn2
      exact hn2
    rw [encRecord, read32_record_word _ _ n hn,
      Nat.mod_eq_of_lt (h3 _ (List.getElem_mem hn))]
  rw [hkey, hemb]
  rfl

theorem dedupScan_append (l1 l2 : List EmbeddingEntry) :
    ∀ seen, dedupScan (l1 ++ l2) seen =
      ((dedupScan l1 seen).1 ++ (dedupScan l2 (dedupScan l1 seen).2).1,
        (dedupScan l2 (dedupScan l1 seen).2).2) := by
  induction l1 with
  | nil => intro seen; simp [dedupScan]
  | cons e rest ih =>
    intro seen
    rw [List.cons_append, dedupScan, dedupScan]
    by_cases he : e.key ∈ seen
    · rw [if_pos he, if_pos he, ih seen]
    · rw [if_neg he, if_neg he]
      simp [ih (e.key :: seen)]

theorem dedupScan_keys (l : List EmbeddingEntry) :
    ∀ seen, ((dedupScan l seen).1.map (·.key)).Nodup ∧
      ∀ k ∈ (dedupScan l seen).1.map (·.key), k ∉ seen := by
  induction l with
  | nil => intro seen; simp [dedupScan]
  | cons e rest ih =>
    intro seen
    rw [dedupScan]
    by_cases he : e.key ∈ seen
    · rw [if_pos he]
      exact ih seen
    · rw [if_neg he]
      obtain ⟨ih1, ih2⟩ := ih (e.key :: seen)
      refine ⟨?_, ?_⟩
      · simp only [List.map_cons, List.nodup_cons]
        refine ⟨?_, ih1⟩
        intro hc
        exact (ih2 _ hc) (List.mem_cons.2 (Or.inl rfl))
      · intro k hk
        simp only [List.map_cons, List.mem_cons] at hk
        rcases hk with hk | hk
        · subst hk
          exact he
        · intro hc
          exact (ih2 k hk) (List.mem_cons.2 (Or.inr hc))

theorem dedupScan_find (l : List EmbeddingEntry) :
    ∀ (seen : List (List Nat)) (k : List Nat), k ∉ seen →
      (dedupScan l seen).1.find? (fun e => e.key == k) =
        l.find? (fun e => e.key == k) := by
  induction l with
  | nil => intro seen k _; simp [dedupScan]
  | cons e rest ih =>
    intro seen k hk
    rw [dedupScan]
    by_cases he : e.key ∈ seen
    · rw [if_pos he]
      have hne : ¬ (e.key == k) = true := by
        simp only [beq_iff_eq]
        intro hc
        exact hk (hc ▸ he)
      rw [@List.find?_cons_of_neg _ (fun x => x.key == k) e rest hne]
      exact ih seen k hk
    · rw [if_neg he]
      by_cases hek : e.key = k
      · rw [@List.find?_cons_of_pos _ (fun x => x.key == k) e
            (dedupScan rest (e.key :: seen)).1 (by simp [hek]),
          @List.find?_cons_of_pos _ (fun x => x.key == k) e rest (by simp [hek])]
      · rw [@List.find?_cons_of_neg _ (fun x => x.key == k) e
            (dedupScan rest (e.key :: seen)).1 (by simp [hek]),
          @List.find?_cons_of_neg _ (fun x => x.key == k) e rest (by simp [hek])]
        refine ih _ k ?_
        intro hc
        rcases List.mem_cons.1 hc with hc | hc
        · exact hek hc.symm
        · exact hk hc

theorem scanChunk_spec (dim : Nat) (ws : Int) (hws : 16 ≤ ws) (pre : List StoredRecord) :
    ∀ (mid post : List StoredRecord),
      (∀ r ∈ pre ++ mid ++ post, WFRecord dim r) →
      ((filePos pre : Int) - ws < 4) →
      (∀ (m1 : List StoredRecord) (r : StoredRecord) (m2 : List StoredRecord),
        mid = m1 ++ r :: m2 → (4 : Int) ≤ (filePos (pre ++ m1 ++ [r]) : Int) - ws) →
      ∀ (fuel : Nat), mid.length + 1 ≤ fuel →
      ∀ (seen : List (List Nat)) (acc : List EmbeddingEntry),
      scanChunk (encFile dim (pre ++ mid ++ post)) dim ws fuel
          ((filePos (pre ++ mid) : Int) - ws) seen acc =
        some (.ok ((filePos pre : Int) - ws,
          (dedupScan ((mid.map toEntry).reverse) seen).2,
          acc ++ (dedupScan ((mid.map toEntry).reverse) seen).1)) := by
  intro mid
  induction mid using List.reverseRecOn with
  | nil =>
    intro post hwf hstop habove fuel hfuel seen acc
    obtain ⟨f, rfl⟩ : ∃ f, fuel = f + 1 := ⟨fuel - 1, by omega⟩
    rw [List.append_nil]
    rw [scanChunk]
    simp only [List.map_nil, List.reverse_nil, dedupScan, List.append_nil]
    by_cases hpos : (filePos pre : Int) - ws > 0
    · rw [if_pos hpos, if_pos hstop]
    · rw [if_neg hpos]
  | append_singleton m' r ih =>
    intro post hwf hstop habove fuel hfuel seen acc
    obtain ⟨f, rfl⟩ : ∃ f, fuel = f + 1 := ⟨fuel - 1, by omega⟩
    have hf : m'.length + 1 ≤ f := by
      simp only [List.length_append, List.length_cons, List.length_nil] at hfuel
      omega
    have hwfr : WFRecord dim r := hwf r (by simp)
    obtain ⟨hw1, hw2, hw3, hw4⟩ := hwfr
    have hlist : pre ++ (m' ++ [r]) ++ post = (pre ++ m') ++ r :: post := by simp
    have hBsplit : filePos (pre ++ (m' ++ [r])) = filePos (pre ++ m') + recLen r := by
      rw [show pre ++ (m' ++ [r]) = (pre ++ m') ++ [r] by simp]
      rw [filePos, filePos, encLen_append, encLen_singleton]
      omega
    have hchunk4 : (4 : Int) ≤ (filePos (pre ++ (m' ++ [r])) : Int) - ws := by
      have := habove m' r [] (by simp)
      rw [show pre ++ m' ++ [r] = pre ++ (m' ++ [r]) by simp] at this
      exact this
    have hfile : encFile dim (pre ++ (m' ++ [r]) ++ post) =
        (writeHeader dim ++ (((pre ++ m').map encRecord)).flatten) ++ encRecord r ++
          (post.map encRecord).flatten := by
      rw [hlist]
      exact encFile_split dim (pre ++ m') r post
    have hAlen : (writeHeader dim ++ (((pre ++ m').map encRecord)).flatten).length =
        filePos (pre ++ m') := by
      rw [List.length_append, length_writeHeader, filePos, encLen]
    have hfoot : readUInt32LE (encFile dim (pre ++ (m' ++ [r]) ++ post))
        (filePos (pre ++ (m' ++ [r])) - 4) = recLen r := by
      rw [hfile, show filePos (pre ++ (m' ++ [r])) - 4 =
        (writeHeader dim ++ (((pre ++ m').map encRecord)).flatten).length + recLen r - 4 by
          rw [hAlen, hBsplit]]
      exact footer_read _ _ r hw4
    have hslice : sliceBytes (encFile dim (pre ++ (m' ++ [r]) ++ post))
        (filePos (pre ++ m')) (recLen r) = encRecord r := by
      rw [hfile, ← hAlen]
      exact record_slice _ _ r
    have hparse : parseRecordFromView (encRecord r) dim = some (toEntry r) :=
      parse_encRecord dim r hw1 hw2 hw3
    have hrev : (((m' ++ [r]).map toEntry).reverse) =
        toEntry r :: ((m'.map toEntry).reverse) := by
      simp
    -- evaluate one iteration of the loop
    rw [scanChunk]
    rw [if_pos (by omega), if_neg (by omega)]
    rw [show (ws + ((filePos (pre ++ (m' ++ [r])) : Int) - ws) - 4).toNat =
      filePos (pre ++ (m' ++ [r])) - 4 by omega]
    rw [hfoot]
    have hrec6 := recLen_ge r
    have hpos16 : (16 : Int) ≤ (filePos (pre ++ m') : Int) := by
      rw [filePos]
      push_cast
      omega
    have hcont : (filePos (pre ++ (m' ++ [r])) : Int) - ws - (recLen r : Int) =
        (filePos (pre ++ m') : Int) - ws := by
      rw [hBsplit]
      push_cast
      ring
    have hcall := ih (r :: post)
      (by rw [show pre ++ m' ++ r :: post = pre ++ (m' ++ [r]) ++ post by simp]; exact hwf)
      hstop
      (by
        intro m1 r2 m2 hsplit
        refine habove m1 r2 (m2 ++ [r]) ?_
        rw [hsplit]
        simp)
      f hf
    by_cases hstraddle : (recLen r : Int) > (filePos (pre ++ (m' ++ [r])) : Int) - ws
    · rw [if_pos hstraddle]
      rw [if_neg (by
        rw [show ws + ((filePos (pre ++ (m' ++ [r])) : Int) - ws) - (recLen r : Int) =
          (filePos (pre ++ (m' ++ [r])) : Int) - (recLen r : Int) by ring]
        rw [hBsplit]
        push_cast
        omega)]
      rw [show (ws + ((filePos (pre ++ (m' ++ [r])) : Int) - ws) - (recLen r : Int)).toNat =
        filePos (pre ++ m') by rw [hBsplit]; push_cast; omega]
      rw [show ((recLen r : Nat) : Int).toNat = recLen r by omega]
      rw [hslice, hparse]
      dsimp only
      rw [hrev, dedupScan]
      rw [show (toEntry r).key = r.key from rfl]
      by_cases hseen : r.key ∈ seen
      · rw [if_pos hseen]
        rw [hcont, hlist, hcall seen acc]
        rw [if_pos hseen]
      · rw [if_neg hseen]
        rw [hcont, hlist, hcall (r.key :: seen) (acc ++ [toEntry r])]
        rw [if_neg hseen]
        simp
    · rw [if_neg hstraddle]
      dsimp only
      rw [show (ws + ((filePos (pre ++ (m' ++ [r])) : Int) - ws - (recLen r : Int))).toNat =
        filePos (pre ++ m') by rw [hBsplit]; push_cast; omega]
      rw [show ((recLen r : Nat) : Int).toNat = recLen r by omega]
      rw [hslice, hparse]
      dsimp only
      rw [hrev, dedupScan]
      rw [show (toEntry r).key = r.key from rfl]
      by_cases hseen : r.key ∈ seen
      · rw [if_pos hseen]
        rw [hcont, hlist, hcall seen acc]
        rw [if_pos hseen]
      · rw [if_neg hseen]
        rw [hcont, hlist, hcall (r.key :: seen) (acc ++ [toEntry r])]
        rw [if_neg hseen]
        simp

theorem encLen_cons (r : StoredRecord) (rs : List StoredRecord) :
    encLen (r :: rs) = recLen r + encLen rs := by
  rw [encLen, List.map_cons, List.flatten_cons, List.length_append, length_encRecord, encLen]

theorem filePos_nil : filePos ([] : List StoredRecord) = 16 := by
  rw [filePos, encLen]
  rfl

theorem scanFile_spec (dim : Nat) :
    ∀ (n : Nat) (rs1 post : List StoredRecord),
      (∀ r ∈ rs1 ++ post, WFRecord dim r) →
      rs1.length ≤ n →
      ∀ (fuel : Nat), rs1.length + 2 ≤ fuel →
      ∀ (seen : List (List Nat)) (acc : List EmbeddingEntry),
      scanFile (encFile dim (rs1 ++ post)) dim fuel ((filePos rs1 : Nat) : Int) seen acc =
        some (.ok (acc ++ (dedupScan ((rs1.map toEntry).reverse) seen).1)) := by
  intro n
  induction n with
  | zero =>
    intro rs1 post hwf hlen fuel hfuel seen acc
    have h0 : rs1 = [] := List.length_eq_zero.1 (by omega)
    subst h0
    obtain ⟨f, rfl⟩ : ∃ f, fuel = f + 1 := ⟨fuel - 1, by omega⟩
    rw [filePos_nil, scanFile, if_neg (by norm_num)]
    simp [dedupScan]
  | succ n ihn =>
    intro rs1 post hwf hlen fuel hfuel seen acc
    rcases hrs : rs1 with _ | ⟨q, qs⟩
    · obtain ⟨f, rfl⟩ : ∃ f, fuel = f + 1 := ⟨fuel - 1, by omega⟩
      rw [filePos_nil, scanFile, if_neg (by norm_num)]
      simp [dedupScan]
    · rw [← hrs]
      have hne : encLen rs1 ≥ 6 := by
        rw [hrs, encLen_cons]
        have := recLen_ge q
        omega
      have hgt : ((filePos rs1 : Nat) : Int) > 16 := by
        rw [filePos]
        push_cast
        omega
      obtain ⟨f, rfl⟩ : ∃ f, fuel = f + 1 := ⟨fuel - 1, by omega⟩
      have hflen : rs1.length + 1 ≤ f := by omega
      rw [scanFile, if_pos hgt]
      dsimp only
      set ws := max 16 (((filePos rs1 : Nat) : Int) - (chunkSize : Int)) with hws_def
      have hws : 16 ≤ ws := le_max_left _ _
      have hcp4 : 4 ≤ ((filePos rs1 : Nat) : Int) - ws := by
        rcases max_choice 16 (((filePos rs1 : Nat) : Int) - (chunkSize : Int)) with h | h
        · rw [← hws_def] at h
          rw [h, filePos]
          push_cast
          omega
        · rw [← hws_def] at h
          rw [h, chunkSize]
          push_cast
          omega
      have hP0 : ((filePos (rs1.take 0) : Nat) : Int) < ws + 4 := by
        rw [List.take_zero, filePos_nil]
        omega
      set m := Nat.findGreatest
        (fun k => ((filePos (rs1.take k) : Nat) : Int) < ws + 4) rs1.length with hm_def
      have hPm : ((filePos (rs1.take m) : Nat) : Int) < ws + 4 :=
        @Nat.findGreatest_spec 0 (fun k => ((filePos (rs1.take k) : Nat) : Int) < ws + 4)
          _ rs1.length (Nat.zero_le _) hP0
      have hm_le : m ≤ rs1.length := Nat.findGreatest_le _
      have hm_lt : m < rs1.length := by
        rcases Nat.lt_or_ge m rs1.length with h | h
        · exact h
        · exfalso
          have hmeq : m = rs1.length := by omega
          rw [hmeq, List.take_length] at hPm
          omega
      have hpm : rs1.take m ++ rs1.drop m = rs1 := List.take_append_drop m rs1
      have hprelen : (rs1.take m).length = m := by
        rw [List.length_take]
        omega
      have hmidne : rs1.drop m ≠ [] := by
        intro hc
        have := List.length_drop m rs1
        rw [hc] at this
        simp at this
        omega
      have hstop : ((filePos (rs1.take m) : Nat) : Int) - ws < 4 := by omega
      have habove : ∀ (m1 : List StoredRecord) (r2 : StoredRecord) (m2 : List StoredRecord),
          rs1.drop m = m1 ++ r2 :: m2 →
          (4 : Int) ≤ ((filePos (rs1.take m ++ m1 ++ [r2]) : Nat) : Int) - ws := by
        intro m1 r2 m2 hsplit
        have hk_le : m + m1.length + 1 ≤ rs1.length := by
          have := congrArg List.length hpm
          rw [List.length_append, hprelen, hsplit, List.length_append,
            List.length_cons] at this
          omega
        have hnotP := Nat.findGreatest_is_greatest
          (show m < m + m1.length + 1 by omega) hk_le
        have htake : rs1.take (m + m1.length + 1) = rs1.take m ++ m1 ++ [r2] := by
          conv_lhs => rw [← hpm, hsplit]
          rw [show rs1.take m ++ (m1 ++ r2 :: m2) = (rs1.take m ++ m1) ++ r2 :: m2 by
            simp [List.append_assoc]]
          rw [List.take_append_eq_append_take]
          rw [List.take_of_length_le (by rw [List.length_append, hprelen]; omega)]
          rw [show m + m1.length + 1 - (rs1.take m ++ m1).length = 1 by
            rw [List.length_append, hprelen]; omega]
          rfl
        rw [← htake]
        simp only [hm_def] at hnotP ⊢
        omega
      have hwf2 : ∀ r ∈ rs1.take m ++ rs1.drop m ++ post, WFRecord dim r := by
        intro r hr
        refine hwf r ?_
        rw [show rs1.take m ++ rs1.drop m ++ post = (rs1.take m ++ rs1.drop m) ++ post by
          simp [List.append_assoc]] at hr
        rw [hpm] at hr
        exact hr
      have hchunk := scanChunk_spec dim ws hws (rs1.take m) (rs1.drop m) post hwf2
        hstop habove f (by
          have := List.length_drop m rs1
          omega) seen acc
      rw [show rs1.take m ++ rs1.drop m ++ post = (rs1.take m ++ rs1.drop m) ++ post by
        simp [List.append_assoc]] at hchunk
      rw [hpm] at hchunk
      rw [hchunk]
      dsimp only
      rw [show ws + (((filePos (rs1.take m) : Nat) : Int) - ws) =
        ((filePos (rs1.take m) : Nat) : Int) by ring]
      have hrec := ihn (rs1.take m) (rs1.drop m ++ post)
        (by
          intro r hr
          refine hwf r ?_
          rw [show rs1.take m ++ (rs1.drop m ++ post) = rs1 ++ post from by
            rw [← List.append_assoc, hpm]] at hr
          exact hr)
        (by omega) f (by omega)
        (dedupScan ((rs1.drop m).map toEntry).reverse seen).2
        (acc ++ (dedupScan ((rs1.drop m).map toEntry).reverse seen).1)
      rw [show rs1.take m ++ (rs1.drop m ++ post) = rs1 ++ post from by
        rw [← List.append_assoc, hpm]] at hrec
      rw [hrec]
      rw [show ((rs1.map toEntry).reverse) =
        (((rs1.drop m).map toEntry).reverse ++ ((rs1.take m).map toEntry).reverse) by
          rw [← List.reverse_append, ← List.map_append, hpm]]
      rw [dedupScan_append]
      simp

theorem readUInt32LE_append_zero (A l : List Nat) :
    readUInt32LE (A ++ l) A.length = readUInt32LE l 0 := by
  simpa using readUInt32LE_append A l 0

theorem readHeader_encFile (dim : Nat) (rs : List StoredRecord)
    (hdim : dim < 4294967296) :
    readHeader (encFile dim rs) = .ok ⟨1, dim⟩ := by
  have hshape : encFile dim rs = magicBytes ++ (uint16LEBytes currentVersion ++
      (uint32LEBytes dim ++ (List.replicate 6 0 ++ (rs.map encRecord).flatten))) := by
    rw [encFile, writeHeader]
    simp [List.append_assoc]
  have hlen : 16 ≤ (encFile dim rs).length := by
    rw [length_encFile, filePos]
    omega
  have hmagic : (encFile dim rs).take 4 = magicBytes := by
    rw [hshape, List.take_append_of_le_length (by decide)]
    rfl
  have hver : readUInt16LE (encFile dim rs) 4 = currentVersion := by
    rw [hshape, show (4 : Nat) = magicBytes.length from rfl, readUInt16LE_append_zero,
      readUInt16LE_uint16LEBytes]
    rfl
  have hdim6 : readUInt32LE (encFile dim rs) 6 = dim := by
    rw [hshape, show magicBytes ++ (uint16LEBytes currentVersion ++
        (uint32LEBytes dim ++ (List.replicate 6 0 ++ (rs.map encRecord).flatten))) =
      (magicBytes ++ uint16LEBytes currentVersion) ++
        (uint32LEBytes dim ++ (List.replicate 6 0 ++ (rs.map encRecord).flatten)) by
        simp [List.append_assoc]]
    rw [show (6 : Nat) = (magicBytes ++ uint16LEBytes currentVersion).length from rfl,
      readUInt32LE_append_zero, readUInt32LE_uint32LEBytes]
    exact Nat.mod_eq_of_lt hdim
  rw [readHeader]
  rw [if_neg (by simp only [headerSize]; omega)]
  rw [if_neg (by rw [hmagic]; simp)]
  simp [hver, hdim6, currentVersion]

/-- C2: for every file consisting of a valid header followed by well-formed
records, entries() yields exactly the newest-first key-deduplicated sequence
of the stored entries: it equals dedupScan of the reversed record list, its
keys are pairwise distinct (one entry per key), and looking any key up in it
gives the same result as looking it up in the reversed record sequence — the
entry of the physically last record with that key.  In particular, distinct
keys k1,k2,k3 written in order come out as [k3,k2,k1], and a key written
three times yields one entry carrying the last write's embedding. -/
theorem readerEntries_dedup (dim : Nat) (rs : List StoredRecord)
    (hdim : dim < 4294967296) (hwf : ∀ r ∈ rs, WFRecord dim r) :
    readerEntries (encFile dim rs) (rs.length + 2) =
        some (.ok (dedupScan ((rs.map toEntry).reverse) []).1) ∧
      ((dedupScan ((rs.map toEntry).reverse) []).1.map (·.key)).Nodup ∧
      (∀ k : List Nat,
        (dedupScan ((rs.map toEntry).reverse) []).1.find? (fun e => e.key == k) =
          ((rs.map toEntry).reverse).find? (fun e => e.key == k)) := by
  refine ⟨?_, (dedupScan_keys _ []).1, fun k => dedupScan_find _ [] k (by simp)⟩
  rw [readerEntries, readHeader_encFile dim rs hdim]
  dsimp only
  by_cases hrs : rs = []
  · subst hrs
    rw [if_pos (by rw [length_encFile, filePos_nil])]
    simp [dedupScan]
  · obtain ⟨q, qs, rfl⟩ := List.exists_cons_of_ne_nil hrs
    have hgt : 16 < (encFile dim (q :: qs)).length := by
      rw [length_encFile, filePos, encLen_cons]
      have := recLen_ge q
      omega
    rw [if_neg (by omega)]
    have hscan := scanFile_spec dim (q :: qs).length (q :: qs) []
      (by simpa using hwf) (le_refl _) ((q :: qs).length + 2) (le_refl _) [] []
    rw [List.append_nil] at hscan
    rw [show (((encFile dim (q :: qs)).length : Nat) : Int) =
      ((filePos (q :: qs) : Nat) : Int) by rw [length_encFile]]
    rw [hscan]
    simp

/-- Witness for `readerEntries_dedup`: three dimension-1 records, the key "a"
written at both ends with different vectors and "b" in the middle. -/
theorem readerEntries_dedup_witness :
    readerEntries (encFile 1 [⟨[97], [1065353216]⟩, ⟨[98], [0]⟩, ⟨[97], [0]⟩]) 5 =
        some (.ok (dedupScan (([⟨[97], [1065353216]⟩, ⟨[98], [0]⟩,
          ⟨[97], [0]⟩].map toEntry).reverse) []).1) ∧
      ((dedupScan (([⟨[97], [1065353216]⟩, ⟨[98], [0]⟩,
          ⟨[97], [0]⟩].map toEntry).reverse) []).1.map (·.key)).Nodup ∧
      (∀ k : List Nat,
        (dedupScan (([⟨[97], [1065353216]⟩, ⟨[98], [0]⟩,
            ⟨[97], [0]⟩].map toEntry).reverse) []).1.find? (fun e => e.key == k) =
          (([⟨[97], [1065353216]⟩, ⟨[98], [0]⟩,
            ⟨[97], [0]⟩].map toEntry).reverse).find? (fun e => e.key == k)) :=
  readerEntries_dedup 1 [⟨[97], [1065353216]⟩, ⟨[98], [0]⟩, ⟨[97], [0]⟩]
    (by decide) (by decide)

/-- Source: types.ts, SearchResult (key modelled by its UTF-8 bytes,
similarity over ℝ). -/
structure SearchResult where
  key : List Nat
  similarity : ℝ

/-- Source: engine.ts, store: generate the embedding for the text, write the
header first if the file does not yet exist (dimension := the embedding's
length), then append one record.  The provider function stands for
generateEmbedding and returns the embedding as float32 bit patterns (the
Float32Array conversion in the source is bit-exact). -/
def EmbeddingEngine.store (provider : List Nat → List Nat)
    (file : Option (List Nat)) (key text : List Nat) : List Nat :=
  let embedding := provider text
  match file with
  | none => writeRecord (writeHeader embedding.length) key embedding
  | some f => writeRecord f key embedding

/-- Source: engine.ts, get: invariant(key) rejects the empty key, a missing
file yields null, and otherwise the reverse reader is scanned for the first
entry with the requested key. -/
def EmbeddingEngine.get (file : Option (List Nat)) (key : List Nat)
    (fuel : Nat) : Option (Except JsError (Option EmbeddingEntry)) :=
  if key = [] then some (.error (.invariantFailed "Key must be provided."))
  else
    match file with
    | none => some (.ok none)
    | some f =>
      match readerEntries f fuel with
      | none => none
      | some (.error e) => some (.error e)
      | some (.ok entries) => some (.ok (entries.find? (fun e => e.key == key)))

open Classical in
/-- Source: engine.ts, one iteration of the search loop: compute the cosine
similarity between the query embedding and the entry's decoded embedding,
skip the entry when the similarity is below minSimilarity, and otherwise add
it to the candidate set (whose invariants may throw). -/
noncomputable def searchStep (queryEmbedding : List ℝ) (minSimilarity : ℝ)
    (cs : CandidateSet ℝ) (e : EmbeddingEntry) :
    Except JsError (CandidateSet ℝ) :=
  match cosineSimilarity queryEmbedding (e.embedding.map fun q => (Rat.cast q : ℝ)) with
  | .error err => .error err
  | .ok similarity =>
    if similarity < minSimilarity then .ok cs
    else cs.add e.key similarity

open Classical in
/-- Source: engine.ts, search: validate the query, the limit and
minSimilarity, return [] when the file does not exist, and otherwise feed
every entry yielded by the reverse reader through the candidate set and turn
its entries (sorted descending by value) into key/similarity results. -/
noncomputable def EmbeddingEngine.search (provider : List Nat → List Nat)
    (file : Option (List Nat)) (query : List Nat) (limit : Nat)
    (minSimilarity : ℝ) (fuel : Nat) :
    Option (Except JsError (List SearchResult)) :=
  if query = [] then
    some (.error (.invariantFailed "Query text must be provided."))
  else if limit = 0 then
    some (.error (.invariantFailed "Limit must be a positive integer."))
  else if ¬ (0 ≤ minSimilarity ∧ minSimilarity ≤ 1) then
    some (.error (.invariantFailed "minSimilarity must be between 0 and 1."))
  else
    match file with
    | none => some (.ok [])
    | some f =>
      let queryEmbedding : List ℝ :=
        (provider query).map (fun w => ((f32ToRat w : ℚ) : ℝ))
      match CandidateSet.create ℝ limit with
      | .error err => some (.error err)
      | .ok cs0 =>
        match readerEntries f fuel with
        | none => none
        | some (.error e) => some (.error e)
        | some (.ok entries) =>
          match entries.foldlM (searchStep queryEmbedding minSimilarity) cs0 with
          | .error err => some (.error err)
          | .ok cs => some (.ok (cs.getEntries.map (fun e => ⟨e.key, e.value⟩)))

/-- The synthetic dimension-3 embedding provider of the end-to-end scenario:
fox ↦ [1,0,0], ml ↦ [0,1,0], fox2 ↦ [0,0,1] as float32 bit patterns
(1.0f = 1065353216 = 0x3F800000); the texts are the bytes "f", "m", "g". -/
def demoProvider (text : List Nat) : List Nat :=
  if text = [102] then [1065353216, 0, 0]
  else if text = [109] then [0, 1065353216, 0]
  else [0, 0, 1065353216]

def doc1Key : List Nat := [100, 111, 99, 49]

def doc2Key : List Nat := [100, 111, 99, 50]

/-- The file produced on a fresh path by store("doc1", fox);
store("doc2", ml); store("doc1", fox2). -/
def demoFile : List Nat :=
  EmbeddingEngine.store demoProvider
    (some (EmbeddingEngine.store demoProvider
      (some (EmbeddingEngine.store demoProvider none doc1Key [102]))
      doc2Key [109]))
    doc1Key [103]

def demoRecords : List StoredRecord :=
  [⟨doc1Key, [1065353216, 0, 0]⟩, ⟨doc2Key, [0, 1065353216, 0]⟩,
    ⟨doc1Key, [0, 0, 1065353216]⟩]

theorem f32ToRat_zero : f32ToRat 0 = 0 := by
  norm_num [f32ToRat]

theorem f32ToRat_one : f32ToRat 1065353216 = 1 := by
  norm_num [f32ToRat]

theorem demoFile_eq : demoFile = encFile 3 demoRecords := by
  rfl

theorem demo_entries :
    readerEntries demoFile 5 = some (.ok
      [⟨doc1Key, "", [0, 0, 1], 0⟩, ⟨doc2Key, "", [0, 1, 0], 0⟩]) := by
  rw [demoFile_eq, readerEntries, readHeader_encFile 3 demoRecords (by norm_num)]
  dsimp only
  rw [if_neg (by rw [length_encFile]; decide)]
  have hscan := scanFile_spec 3 3 demoRecords [] (by decide) (by decide) 5
    (by decide) [] []
  rw [List.append_nil] at hscan
  rw [show (((encFile 3 demoRecords).length : Nat) : Int) =
    ((filePos demoRecords : Nat) : Int) by rw [length_encFile]]
  rw [hscan]
  norm_num [demoRecords, toEntry, dedupScan, doc1Key, doc2Key,
    f32ToRat_zero, f32ToRat_one]

theorem cosine_e3_e3 : cosineSimilarity [0, 0, 1] [0, 0, 1] = .ok 1 := by
  rw [cosineSimilarity]
  rw [if_neg (by norm_num)]
  have h1 : sumSquares [(0 : ℝ), 0, 1] = 1 := by norm_num [sumSquares]
  dsimp only
  rw [h1, Real.sqrt_one]
  rw [if_neg (by norm_num)]
  norm_num [dotProduct]

theorem cosine_e3_e2 : cosineSimilarity [0, 0, 1] [0, 1, 0] = .ok 0 := by
  rw [cosineSimilarity]
  rw [if_neg (by norm_num)]
  have h1 : sumSquares [(0 : ℝ), 0, 1] = 1 := by norm_num [sumSquares]
  have h2 : sumSquares [(0 : ℝ), 1, 0] = 1 := by norm_num [sumSquares]
  dsimp only
  rw [h1, h2, Real.sqrt_one]
  rw [if_neg (by norm_num)]
  norm_num [dotProduct]

/-- C1: the end-to-end scenario DIVERGES from the claim on the search half.
After the three stores, get("doc1") does return the entry whose embedding is
[0,0,1] (the last write wins), but search(query=[0,0,1], limit=1,
minSimilarity=0) does not return [{doc1, ≈1.0}]: the doc2 entry has cosine
similarity exactly 0, which passes the `similarity < minSimilarity` filter
(0 < 0 is false), and CandidateSet.add then throws `Invariant failed: Value
must be provided.` because tiny-invariant treats the number 0 as falsy, so
the whole search call throws instead of returning results. -/
theorem engine_scenario_zero_similarity_throws :
    EmbeddingEngine.get (some demoFile) doc1Key 5 =
        some (.ok (some ⟨doc1Key, "", [0, 0, 1], 0⟩)) ∧
      EmbeddingEngine.search demoProvider (some demoFile) [103] 1 0 5 =
        some (.error (.invariantFailed "Value must be provided.")) := by
  constructor
  · have h1 : EmbeddingEngine.get (some demoFile) doc1Key 5 =
        match readerEntries demoFile 5 with
        | none => none
        | some (.error e) => some (.error e)
        | some (.ok entries) =>
          some (.ok (entries.find? (fun e => e.key == doc1Key))) := by
      rw [EmbeddingEngine.get, if_neg (by decide)]
    rw [h1, demo_entries]
    rfl
  · rw [EmbeddingEngine.search]
    rw [if_neg (by decide), if_neg (by decide), if_neg (by norm_num)]
    dsimp only
    have hq : (demoProvider [103]).map (fun w => ((f32ToRat w : ℚ) : ℝ)) =
        [0, 0, 1] := by
      norm_num [demoProvider, f32ToRat_zero, f32ToRat_one]
    rw [hq]
    have hcs : CandidateSet.create ℝ 1 = .ok ⟨1, []⟩ := by
      rw [CandidateSet.create, if_neg (by decide)]
    rw [hcs]
    dsimp only
    rw [demo_entries]
    dsimp only
    have hstep1 : searchStep [0, 0, 1] 0 ⟨1, []⟩ ⟨doc1Key, "", [0, 0, 1], 0⟩ =
        .ok ⟨1, [⟨doc1Key, 1⟩]⟩ := by
      rw [searchStep]
      dsimp only
      rw [show List.map (fun q => (Rat.cast q : ℝ)) ([0, 0, 1] : List ℚ) =
        [0, 0, 1] by norm_num]
      rw [cosine_e3_e3]
      dsimp only
      rw [if_neg (by norm_num)]
      rw [CandidateSet.add, if_neg (by decide), if_neg (by norm_num),
        if_pos (by decide)]
      rfl
    have hstep2 : searchStep [0, 0, 1] 0 ⟨1, [⟨doc1Key, 1⟩]⟩
        ⟨doc2Key, "", [0, 1, 0], 0⟩ =
        .error (.invariantFailed "Value must be provided.") := by
      rw [searchStep]
      dsimp only
      rw [show List.map (fun q => (Rat.cast q : ℝ)) ([0, 1, 0] : List ℚ) =
        [0, 1, 0] by norm_num]
      rw [cosine_e3_e2]
      dsimp only
      rw [if_neg (by norm_num)]
      rw [CandidateSet.add, if_neg (by decide), if_pos rfl]
    rw [List.foldlM_cons, hstep1]
    have hbind : (Except.ok (⟨1, [⟨doc1Key, 1⟩]⟩ : CandidateSet ℝ) >>=
        fun b => List.foldlM (searchStep [0, 0, 1] 0) b
          [⟨doc2Key, "", [0, 1, 0], 0⟩]) =
        List.foldlM (searchStep [0, 0, 1] 0) ⟨1, [⟨doc1Key, 1⟩]⟩
          [⟨doc2Key, "", [0, 1, 0], 0⟩] := rfl
    rw [hbind, List.foldlM_cons, hstep2]
    rfl
